import Mathlib

/-!
pq_async: the utility primitives of `include/pq-async/utils.h`.

A shallow embedding of the header's functions.  A `std::string` is a list of
bytes, a byte is a natural number below 256, fixed-width integers are `Int`
or `Nat` with the wrap-around written out.  The locale, which the C++ code
reads from ambient process state, is an explicit argument.
-/

namespace pq_async

/-- A `std::string`: its bytes in order. -/
abbrev Str := List Nat

/-- The bytes of an ASCII literal. -/
def lit (s : String) : Str := s.toList.map Char.toNat

/-! ## join -/

/-- The lambda handed to `std::accumulate` in `join`:
`a + (a.length() > 0 ? separator : "") + b`. -/
def join_step (separator : Str) (a b : Str) : Str :=
  a ++ (if a.length > 0 then separator else []) ++ b

/-- `join(lst, separator)`: `std::accumulate` from the empty string with
`join_step`, a left fold over the container. -/
def join (lst : List Str) (separator : Str) : Str :=
  lst.foldl (join_step separator) []

/-! ## byte order -/

/-- The two byte orders a host can have. -/
inductive ByteOrder where
  | little
  | big
deriving DecidableEq, Repr

/-- Network byte order is big-endian. -/
def network_order : ByteOrder := ByteOrder.big

/-- The low `n` bytes of the bit pattern `x`, least significant byte first. -/
def bytesLE : Nat → Nat → List Nat
  | 0, _ => []
  | n + 1, x => x % 256 :: bytesLE n (x / 256)

/-- The number whose base-256 digits, least significant first, are `bs`. -/
def valueLE : List Nat → Nat
  | [] => 0
  | b :: bs => b + 256 * valueLE bs

/-- The object representation of an `n`-byte integer with bit pattern `x`,
lowest address first, on a host of the given byte order. -/
def store (host : ByteOrder) (n x : Nat) : List Nat :=
  match host with
  | ByteOrder.little => bytesLE n x
  | ByteOrder.big => (bytesLE n x).reverse

/-- The bit pattern a host of the given byte order reads from the bytes `bs`,
lowest address first. -/
def load (host : ByteOrder) (bs : List Nat) : Nat :=
  match host with
  | ByteOrder.little => valueLE bs
  | ByteOrder.big => valueLE bs.reverse

/-- The two's-complement bit pattern of the `w`-bit signed value `v`. -/
def to_pattern (w : Nat) (v : Int) : Nat := (v % 2 ^ w).toNat

/-- The `w`-bit signed value with bit pattern `p`. -/
def of_pattern (w : Nat) (p : Nat) : Int :=
  if p < 2 ^ (w - 1) then (p : Int) else (p : Int) - 2 ^ w

/-- The range of a `w`-bit signed integer. -/
def in_range (w : Nat) (v : Int) : Prop := -(2 ^ (w - 1) : Int) ≤ v ∧ v < 2 ^ (w - 1)

instance (w : Nat) (v : Int) : Decidable (in_range w v) := by
  unfold in_range; infer_instance

/-- Modelled from the spec: the bodies of `swap2`, `swap4` and `swap8` are not in
the header, which only declares them.  The spec (4.1): a conversion between
host byte order and network (big-endian) byte order, `to_network` true for
host to network and false for network to host; when the order the bytes are
in already is the order asked for, the bytes are copied unchanged, otherwise
the byte sequence is fully reversed.  One side of the conversion is always the
host order and the other the network order. -/
def swap_bytes (host : ByteOrder) (to_network : Bool) (inp : List Nat) : List Nat :=
  let source := if to_network then host else network_order
  let target := if to_network then network_order else host
  if source = target then inp else inp.reverse

/-- Modelled from the spec: a swap of an `n`-byte signed integer, the missing
bodies of `swap2`, `swap4`, `swap8` at `n = 2, 4, 8`: the bytes of `*inp` as
they lie in host memory go through `swap_bytes` into `*outp`, which is read
back as a host integer. -/
def swap_n (n : Nat) (host : ByteOrder) (inp : Int) (to_network : Bool) : Int :=
  of_pattern (8 * n)
    (load host (swap_bytes host to_network (store host n (to_pattern (8 * n) inp))))

/-- Modelled from the spec: `swap2(const int16_t* inp, int16_t* outp, bool to_network)`,
declared without a body in the header; the value written to `*outp`. -/
def swap2 (host : ByteOrder) (inp : Int) (to_network : Bool) : Int :=
  swap_n 2 host inp to_network

/-- Modelled from the spec: `swap4(const int32_t* inp, int32_t* outp, bool to_network)`,
declared without a body in the header; the value written to `*outp`. -/
def swap4 (host : ByteOrder) (inp : Int) (to_network : Bool) : Int :=
  swap_n 4 host inp to_network

/-- Modelled from the spec: `swap8(const int64_t* inp, int64_t* outp, bool to_network)`,
declared without a body in the header; the value written to `*outp`. -/
def swap8 (host : ByteOrder) (inp : Int) (to_network : Bool) : Int :=
  swap_n 8 host inp to_network

/-- Byte `i` (0 the least significant) of the `w`-bit signed value `v`. -/
def byte_at (w : Nat) (v : Int) (i : Nat) : Nat := to_pattern w v / 256 ^ i % 256

/-- The bit pattern `x` of `n` bytes with its bytes in reversed order. -/
def reversed (n x : Nat) : Nat := valueLE (bytesLE n x).reverse

/-! ## hex rendering -/

/-- The lowercase hexadecimal digit of a nibble: `0`..`9`, then `a`..`f`. -/
def hex_digit (d : Nat) : Nat := if d < 10 then 48 + d else 87 + d

/-- Modelled from the spec: the body of `hex_to_str(const uint8_t* data, int len)`
is not in the header, which only declares it.  The spec (4.2, 8): the first
`len` bytes of the buffer are rendered as lowercase hexadecimal, two digits per
byte, high nibble first, zero-padded, no separators, no prefix. -/
def hex_to_str (data : List Nat) (len : Nat) : Str :=
  (data.take len).flatMap (fun b => [hex_digit (b / 16 % 16), hex_digit (b % 16)])

/-! ## locales and numeric types -/

/-- What the stream code reads of a `std::locale`: the whitespace class of its
`ctype<char>` facet and the `numpunct<char>` facet (decimal point, thousands
separator, and the bytes of the grouping string). -/
structure Locale where
  is_space : Nat → Bool
  decimal_point : Nat
  thousands_sep : Nat
  grouping : List Nat

/-- The classic `"C"` locale: ASCII whitespace, `.` as decimal point, no
grouping. -/
def classic : Locale :=
  { is_space := fun c => c == 32 || (9 ≤ c && c ≤ 13),
    decimal_point := 46, thousands_sep := 44, grouping := [] }

/-- A grouping byte that limits its group: positive as a `signed char` and not
`CHAR_MAX`. -/
def limited (g : Nat) : Bool := 0 < g && g < 127

/-- Whether a locale groups digits at all: its grouping string is not empty and
its first byte limits the group. -/
def uses_grouping (loc : Locale) : Bool :=
  match loc.grouping with
  | [] => false
  | g :: _ => limited g

/-- The fixed-width integer types. `int8_t` and `uint8_t` are `signed char` and
`unsigned char`, which the streams read and write as single characters. -/
inductive NumType where
  | int8 | uint8 | int16 | uint16 | int32 | uint32 | int64 | uint64
deriving DecidableEq, Repr

/-- The width of the type in bits. -/
def NumType.bits : NumType → Nat
  | int8 => 8 | uint8 => 8
  | int16 => 16 | uint16 => 16
  | int32 => 32 | uint32 => 32
  | int64 => 64 | uint64 => 64

/-- Whether the type is signed. -/
def NumType.is_signed : NumType → Bool
  | int8 => true | int16 => true | int32 => true | int64 => true
  | uint8 => false | uint16 => false | uint32 => false | uint64 => false

/-- Whether the type is a character type to the streams. -/
def NumType.is_char : NumType → Bool
  | int8 => true | uint8 => true
  | _ => false

/-- The least value of the type. -/
def NumType.min_value (T : NumType) : Int :=
  if T.is_signed then -(2 ^ (T.bits - 1)) else 0

/-- The greatest value of the type. -/
def NumType.max_value (T : NumType) : Int :=
  if T.is_signed then 2 ^ (T.bits - 1) - 1 else 2 ^ T.bits - 1

/-- The value `n` is one the type can hold. -/
def NumType.holds (T : NumType) (n : Int) : Prop := T.min_value ≤ n ∧ n ≤ T.max_value

instance (T : NumType) (n : Int) : Decidable (T.holds n) := by
  unfold NumType.holds; infer_instance

/-- A value handed to `num_to_str`: an integer of one of the integer types, or a
floating-point value.  The conversion of a floating-point value to digits
(`printf` with `%g`, stage 1 of `num_put`) does not depend on the locale and is
not modelled: the value is given by the result of that conversion, a sign, the
digits before the point and, when the conversion wrote a point, the digits
after it.  Conversions with an exponent are left out. -/
inductive Number where
  | integer (T : NumType) (n : Int)
  | real (negative : Bool) (int_digits : Str) (fraction : Option Str)

/-- Whether the value is of an integer type. -/
def Number.is_integer : Number → Bool
  | Number.integer _ _ => true
  | Number.real _ _ _ => false

/-! ## num_to_str -/

/-- The decimal digits of `n` as ASCII, least significant first; `fuel` bounds
the number of digits. -/
def digits_rev : Nat → Nat → Str
  | 0, _ => []
  | fuel + 1, n => (48 + n % 10) :: (if n < 10 then [] else digits_rev fuel (n / 10))

/-- The decimal digits of `n` as ASCII, most significant first, as `%u` writes
them: no leading zero, `0` for zero. -/
def dec_digits (n : Nat) : Str := (digits_rev (n + 1) n).reverse

/-- Digit grouping on digits held least significant first: while the current
grouping byte limits the group and more digits than that remain, a group of that
many digits is cut off and a separator follows it; the last grouping byte
repeats.  `fuel` bounds the number of groups. -/
def add_grouping_rev (sep : Nat) : Nat → List Nat → Str → Str
  | 0, _, ds => ds
  | _, [], ds => ds
  | fuel + 1, g :: gs, ds =>
    if limited g && g < ds.length then
      ds.take g ++ sep :: add_grouping_rev sep fuel (if gs = [] then [g] else gs) (ds.drop g)
    else ds

/-- Stage 3 of `std::num_put` on a run of digits: when the first grouping byte of
the locale limits its group, the locale's thousands separator is inserted by
the locale's grouping, counted from the right. -/
def group_digits (loc : Locale) (digits : Str) : Str :=
  if uses_grouping loc then
    (add_grouping_rev loc.thousands_sep digits.length loc.grouping digits.reverse).reverse
  else digits

/-- The stream insertion `ss << number` of the C++ standard library (`operator<<`
and `std::num_put`), under the locale the stream is imbued with.  An
integer of a character type is written as that one character.  Any other
integer is written as `%d` / `%u` writes it, with the digits grouped; the sign
is not part of the grouped digits.  A floating-point value has the digits
before the point grouped and the point replaced by the locale's decimal point.
The stream has its default flags (decimal, no `showpos`, no width). -/
def insert (loc : Locale) : Number → Str
  | Number.integer T n =>
    if T.is_char then [to_pattern 8 n]
    else (if n < 0 then [45] else []) ++ group_digits loc (dec_digits n.natAbs)
  | Number.real negative int_digits fraction =>
    (if negative then [45] else []) ++ group_digits loc int_digits ++
      (match fraction with
       | none => []
       | some f => loc.decimal_point :: f)

/-- The `numpunct` facet `no_grouping`: `numpunct_byname<char>("")`, the facet of
the environment locale, with `do_grouping` overridden to return `""`. -/
def no_grouping (env : Locale) : Locale := { env with grouping := [] }

/-- `num_to_str(number, grouping)`.  A `std::stringstream` starts out with the
global (active) locale `global`; when `grouping` is false it is imbued with
`std::locale(std::locale(""), new no_grouping)`, the environment locale `env`
with its `numpunct` facet replaced by `no_grouping`.  The result is what
`ss << number` wrote. -/
def num_to_str (env global : Locale) (number : Number) (grouping : Bool) : Str :=
  let ss := if !grouping then no_grouping env else global
  insert ss number

/-! ## str_to_num -/

/-- An ASCII decimal digit. -/
def is_digit (c : Nat) : Bool := 48 ≤ c && c ≤ 57

/-- The byte is the thousands separator of a locale that groups digits. -/
def is_sep (loc : Locale) (c : Nat) : Bool := uses_grouping loc && c == loc.thousands_sep

/-- The state of `num_get` while it reads digits: the magnitude read so far, the
number of digits since the last separator, the sizes of the groups closed by a
separator, and whether a misplaced separator was met. -/
structure Scan where
  value : Nat
  sep_pos : Nat
  found_grouping : List Nat
  testfail : Bool
deriving DecidableEq, Repr

/-- The scanning state before any digit is read. -/
def scan_start : Scan := { value := 0, sep_pos := 0, found_grouping := [], testfail := false }

/-- The digit loop of `std::num_get` for base 10, as the GNU C++ library runs it,
leading zeros included.  A thousands separator closes a
group, and is an error at the start or right after another separator; the
decimal point and any byte that is not a digit end the loop; a digit is
accumulated.  The magnitude is kept exactly, the overflow test is made on it at
the end. -/
def scan (loc : Locale) : Str → Scan → Scan
  | [], s => s
  | c :: cs, s =>
    if is_sep loc c then
      if s.sep_pos ≠ 0 then
        scan loc cs { s with found_grouping := s.found_grouping ++ [s.sep_pos], sep_pos := 0 }
      else { s with testfail := true }
    else if c = loc.decimal_point then s
    else if is_digit c then
      scan loc cs { s with value := 10 * s.value + (c - 48), sep_pos := s.sep_pos + 1 }
    else s

/-- The check of the group sizes found in the input against the grouping of the
locale: counted from the right, every group but the leftmost has the size the
grouping gives it, the last grouping byte repeating, and the leftmost is no
longer than its grouping byte when that byte limits the group. -/
def verify_grouping (grouping found : List Nat) : Bool :=
  let n := found.length - 1
  let m := min n (grouping.length - 1)
  let r := found.reverse
  (List.range n).all (fun j => r.getD j 0 == grouping.getD (min j m) 0) &&
    (!limited (grouping.getD m 0) || found.headD 0 ≤ grouping.getD m 0)

/-- The stream extraction `ss >> result` of the C++ standard library (`operator>>`
and `std::num_get`, default flags: `skipws`, decimal) into an integer that is
not of a character type, under the locale of the stream; `none` when the
stream ends up failed.  Leading
whitespace is skipped; an optional sign is taken; digits and separators are
scanned; the extraction fails when no digit was read, a separator was
misplaced, the group sizes do not verify, or the value is out of the range of
the type.  An unsigned type takes a minus sign and negates within the type. -/
def extract_int (T : NumType) (loc : Locale) (text : Str) : Option Int :=
  match text.dropWhile loc.is_space with
  | [] => none
  | c :: cs =>
    let negative : Bool := c == 45
    let has_sign : Bool := (negative || c == 43) && !is_sep loc c && !(c == loc.decimal_point)
    let s := scan loc (if has_sign then cs else c :: cs) scan_start
    if (s.sep_pos = 0 ∧ s.found_grouping = []) ∨ s.testfail then none
    else if s.found_grouping ≠ [] ∧
        verify_grouping loc.grouping (s.found_grouping ++ [s.sep_pos]) = false then none
    else if T.is_signed then
      let v : Int := if negative then -(s.value : Int) else s.value
      if T.holds v then some v else none
    else
      if (s.value : Int) ≤ T.max_value then
        some (if negative then (2 ^ T.bits - (s.value : Int)) % 2 ^ T.bits else s.value)
      else none

/-- The stream extraction `ss >> result` for every integer type; `none` when the stream ends
up failed.  A character type takes the first byte after the whitespace as its
value; any other type goes through `extract_int`. -/
def extract (T : NumType) (loc : Locale) (text : Str) : Option Int :=
  if T.is_char then
    match text.dropWhile loc.is_space with
    | [] => none
    | c :: _ => some (if T.is_signed then of_pattern 8 c else c)
  else extract_int T loc text

/-- `str_to_num<T>(text)`: `ss >> result ? result : 0`, the stream holding the
global (active) locale `loc`. -/
def str_to_num (T : NumType) (loc : Locale) (text : Str) : Int :=
  match extract T loc text with
  | some result => result
  | none => 0

/-- The bytes a decimal numeral is made of: the digits and the two signs. -/
def numeral_bytes : List Nat := [43, 45, 48, 49, 50, 51, 52, 53, 54, 55, 56, 57]

/-- A locale in which no digit or sign is whitespace, the decimal point or the
thousands separator in use. -/
def plain_numerals (loc : Locale) : Bool :=
  numeral_bytes.all (fun c => !loc.is_space c && !(c == loc.decimal_point) && !is_sep loc c)

/-- The value a run of ASCII decimal digits denotes. -/
def decimal_value (ds : Str) : Nat := ds.foldl (fun a c => 10 * a + (c - 48)) 0

/-- The value of a run of digits held least significant first. -/
def value_rev : Str → Nat
  | [] => 0
  | c :: cs => (c - 48) + 10 * value_rev cs

/-- The value a numeral denotes: its digits, negated after a minus sign. -/
def numeral_value (sign ds : Str) : Int :=
  if sign = [45] then -(decimal_value ds : Int) else decimal_value ds

/-- Whether the text, after the whitespace the stream skips, starts with a
decimal numeral: an optional sign followed by at least one digit. -/
def starts_with_numeral (loc : Locale) (text : Str) : Bool :=
  match text.dropWhile loc.is_space with
  | [] => false
  | c :: cs =>
    is_digit c || ((c == 43 || c == 45) &&
      (match cs with
       | [] => false
       | d :: _ => is_digit d))

/-- The size the grouping string gives the group at position `k`, position 0
being the rightmost group: byte `k` of the string, and its last byte for every
position past its end. -/
def group_size (grouping : List Nat) (k : Nat) : Nat :=
  grouping.getD (min k (grouping.length - 1)) 0

/-- The digit groups, rightmost first, are cut as the grouping string says:
every group but the leftmost has exactly the size the string gives its
position, which limits it, and the leftmost group is not empty and no longer
than its size when that size limits it. -/
def follows_grouping (grouping : List Nat) (groups : List Str) : Prop :=
  ∀ k (hk : k < groups.length),
    if k + 1 < groups.length then
      limited (group_size grouping k) = true ∧ groups[k].length = group_size grouping k
    else
      groups[k] ≠ [] ∧
        (limited (group_size grouping k) = true → groups[k].length ≤ group_size grouping k)

/-- A locale with groups of three set off by a comma and a decimal point, as in `en_US`. -/
def en_US : Locale :=
  { is_space := classic.is_space, decimal_point := 46, thousands_sep := 44, grouping := [3] }

/-- A locale with a decimal comma and groups of three set off by a dot, as in `de_DE`. -/
def de_DE : Locale :=
  { is_space := classic.is_space, decimal_point := 44, thousands_sep := 46, grouping := [3] }

/-! ## character classification and the text utilities -/

/-- What the text utilities read of the host: whether plain `char` is signed, and
the `<cctype>` functions `std::isspace` and `std::tolower` of the C library,
which take an `int` and follow the C locale in force. -/
structure Host where
  char_signed : Bool
  isspace : Int → Bool
  tolower : Int → Int

/-- The function `isspace` in the `"C"` locale: blank, and tab to carriage return. -/
def c_isspace (c : Int) : Bool := c == 32 || (9 ≤ c && c ≤ 13)

/-- The function `tolower` in the `"C"` locale, with the table of the GNU C library
for the values outside the range of `unsigned char`: `A`..`Z` go to `a`..`z`,
the negative values -128..-2 a signed `char` converts to go to the byte they
stand for, every other value (`EOF`, -1, among them) is returned as it is. -/
def c_tolower (c : Int) : Int :=
  if 65 ≤ c ∧ c ≤ 90 then c + 32 else if -128 ≤ c ∧ c < -1 then c + 256 else c

/-- A host with signed `char` in the `"C"` locale, the locale a program starts in. -/
def c_host : Host := { char_signed := true, isspace := c_isspace, tolower := c_tolower }

/-- The host's classification is that of the `"C"` locale: on every value an
`unsigned char` converts to, `tolower` and `isspace` are the ASCII ones; a
negative value a signed `char` converts to, for which the C standard leaves
the functions open, is no whitespace, and `tolower` returns it as it is or
returns the byte it stands for. -/
def in_c_locale (h : Host) : Prop :=
  (∀ c : Int, 0 ≤ c → c ≤ 255 → h.tolower c = c_tolower c ∧ h.isspace c = c_isspace c) ∧
  (∀ c : Int, -128 ≤ c → c < 0 →
    (h.tolower c = c ∨ h.tolower c = c + 256) ∧ h.isspace c = false)

/-- The `int` a plain `char` holding the byte `b` converts to. -/
def char_to_int (h : Host) (b : Nat) : Int := if h.char_signed then of_pattern 8 b else b

/-- Every element of the string is a byte. -/
def is_bytes (s : Str) : Prop := ∀ b ∈ s, b < 256

instance (s : Str) : Decidable (is_bytes s) := by
  unfold is_bytes; infer_instance

/-- `str_to_lower(str)`: a copy of the string in which `std::transform` replaces
every character by what the lambda `[](unsigned char c){ return std::tolower(c); }`
returns, converted back to `char`. -/
def str_to_lower (h : Host) (str : Str) : Str :=
  str.map (fun (c : Nat) => to_pattern 8 (h.tolower (c : Int)))

/-- The predicate of `std::equal` in `iequals`:
`ca == cb || std::tolower(ca) == std::tolower(cb)`, on two plain `char`. -/
def iequals_char (h : Host) (ca cb : Nat) : Bool :=
  ca == cb || h.tolower (char_to_int h ca) == h.tolower (char_to_int h cb)

/-- `iequals(a, b)`: the sizes are equal and `std::equal` finds the predicate true
at every position. -/
def iequals (h : Host) (a b : Str) : Bool :=
  a.length == b.length && (a.zip b).all (fun p => iequals_char h p.1 p.2)

/-- The byte is whitespace to the lambda of `ltrim` and `rtrim`, which hands the
character as an `int` to `std::isspace`. -/
def is_ws (h : Host) (ch : Nat) : Bool := h.isspace (char_to_int h ch)

/-- `ltrim(s)`, the new value of `s`: everything before the first character that
is not whitespace is erased. -/
def ltrim (h : Host) (s : Str) : Str := s.dropWhile (is_ws h)

/-- `rtrim(s)`, the new value of `s`: the search runs over the reversed string,
everything after the last character that is not whitespace is erased. -/
def rtrim (h : Host) (s : Str) : Str := (s.reverse.dropWhile (is_ws h)).reverse

/-- `trim(s)`, the new value of `s`: `ltrim(s)` then `rtrim(s)`. -/
def trim (h : Host) (s : Str) : Str := rtrim h (ltrim h s)

/-- `ltrim_copy(s)`: `ltrim` on the copy, which is returned. -/
def ltrim_copy (h : Host) (s : Str) : Str := ltrim h s

/-- `rtrim_copy(s)`: `rtrim` on the copy, which is returned. -/
def rtrim_copy (h : Host) (s : Str) : Str := rtrim h s

/-- `trim_copy(s)`: `trim` on the copy, which is returned. -/
def trim_copy (h : Host) (s : Str) : Str := trim h s

/-- Every byte of the string is whitespace. -/
def all_ws (h : Host) (s : Str) : Prop := ∀ b ∈ s, is_ws h b = true

/-- The string is empty, or it starts and ends with a byte that is not
whitespace. -/
def trimmed (h : Host) (t : Str) : Prop :=
  t = [] ∨ ((∃ b, t.head? = some b ∧ is_ws h b = false) ∧
    (∃ b, t.getLast? = some b ∧ is_ws h b = false))

/-! ## get_last -/

/-- `get_last(v, args...)` on a call with the first argument `v` and the further
arguments `args`: the one-argument overload returns `v`, the variadic overload
drops `v` and calls `get_last(args...)`.  The arguments are values of one type
here; the static type of the result is not modelled. -/
def get_last {α : Type} : α → List α → α
  | v, [] => v
  | _, a :: args => get_last a args

/-! ## stopwatch -/

/-- The class `stopwatch`: the captured instant `_s`, a reading of the clock in
ticks. -/
structure stopwatch where
  _s : Int
deriving DecidableEq, Repr

/-- The constructor: `_s(_hrc::now())`, with `now` the reading of the clock. -/
def stopwatch.create (now : Int) : stopwatch := { _s := now }

/-- `reset()`: `_s = _hrc::now()`. -/
def stopwatch.reset (_w : stopwatch) (now : Int) : stopwatch := { _s := now }

/-- `elapsed()`: `_hrc::now() - _s`, in ticks; the conversion of the tick count to
seconds as a `double` is not modelled.  The method is `const`: there is no new
state. -/
def stopwatch.elapsed (w : stopwatch) (now : Int) : Int := now - w._s

/-- A call on a stopwatch. -/
inductive Call where
  | reset
  | elapsed
deriving DecidableEq, Repr

/-- A run of calls on a stopwatch: call number `k` reads `clock k`; the results
of the `elapsed()` calls, in order. -/
def run (clock : Nat → Int) : Nat → stopwatch → List Call → List Int
  | _, _, [] => []
  | k, w, Call.reset :: calls => run clock (k + 1) (w.reset (clock k)) calls
  | k, w, Call.elapsed :: calls => w.elapsed (clock k) :: run clock (k + 1) w calls

/-- The fold `iequals` compares: `std::tolower` of the plain `char` as an `int`. -/
def lower_char (h : Host) (c : Nat) : Int := h.tolower (char_to_int h c)

/-- The ASCII lowercase of a byte: `A`..`Z` go to `a`..`z`, every other byte stays. -/
def ascii_lower (c : Nat) : Nat := if 65 ≤ c ∧ c ≤ 90 then c + 32 else c

/-- An argument of a call of `get_last` in the examples: an `int`, a `double` or a
string literal. -/
inductive Arg where
  | int (n : Int)
  | real (x : Rat)
  | text (s : Str)

end pq_async

namespace pq_async

/-! ## byte order: facts -/

theorem bytesLE_length (n x : Nat) : (bytesLE n x).length = n := by
  induction n generalizing x with
  | zero => rfl
  | succ n ih => simp [bytesLE, ih]

theorem bytesLE_lt (n x : Nat) : ∀ b ∈ bytesLE n x, b < 256 := by
  induction n generalizing x with
  | zero => simp [bytesLE]
  | succ n ih =>
    intro b hb
    simp only [bytesLE, List.mem_cons] at hb
    rcases hb with hb | hb
    · subst hb; exact Nat.mod_lt _ (by norm_num)
    · exact ih _ b hb

theorem valueLE_bytesLE (n x : Nat) : valueLE (bytesLE n x) = x % 256 ^ n := by
  induction n generalizing x with
  | zero => simp [bytesLE, valueLE, Nat.mod_one]
  | succ n ih =>
    simp only [bytesLE, valueLE, ih]
    rw [pow_succ, mul_comm (256 ^ n) 256, Nat.mod_mul]

theorem valueLE_lt (bs : List Nat) (h : ∀ b ∈ bs, b < 256) : valueLE bs < 256 ^ bs.length := by
  induction bs with
  | nil => simp [valueLE]
  | cons b bs ih =>
    have hb : b < 256 := h b (List.mem_cons_self _ _)
    have ht := ih (fun c hc => h c (List.mem_cons_of_mem _ hc))
    simp only [valueLE, List.length_cons, pow_succ]
    omega

theorem bytesLE_valueLE (bs : List Nat) (h : ∀ b ∈ bs, b < 256) :
    bytesLE bs.length (valueLE bs) = bs := by
  induction bs with
  | nil => rfl
  | cons b bs ih =>
    have hb : b < 256 := h b (List.mem_cons_self _ _)
    have ht := ih (fun c hc => h c (List.mem_cons_of_mem _ hc))
    simp only [List.length_cons, bytesLE, valueLE]
    have h1 : (b + 256 * valueLE bs) % 256 = b := by omega
    have h2 : (b + 256 * valueLE bs) / 256 = valueLE bs := by omega
    rw [h1, h2, ht]

theorem reversed_lt (n x : Nat) : reversed n x < 256 ^ n := by
  have h := valueLE_lt (bytesLE n x).reverse
    (fun b hb => bytesLE_lt n x b (List.mem_reverse.mp hb))
  simpa [reversed, bytesLE_length] using h

theorem reversed_reversed (n x : Nat) (hx : x < 256 ^ n) : reversed n (reversed n x) = x := by
  unfold reversed
  have h := bytesLE_valueLE (bytesLE n x).reverse
    (fun b hb => bytesLE_lt n x b (List.mem_reverse.mp hb))
  simp only [List.length_reverse, bytesLE_length] at h
  rw [h, List.reverse_reverse, valueLE_bytesLE, Nat.mod_eq_of_lt hx]

theorem getElem_bytesLE (n x i : Nat) (hi : i < (bytesLE n x).length) :
    (bytesLE n x)[i] = x / 256 ^ i % 256 := by
  induction n generalizing x i with
  | zero => simp [bytesLE] at hi
  | succ n ih =>
    cases i with
    | zero => simp [bytesLE]
    | succ i =>
      simp only [bytesLE, List.getElem_cons_succ]
      rw [ih, Nat.div_div_eq_div_mul, pow_succ, mul_comm]

theorem valueLE_digit (bs : List Nat) (h : ∀ b ∈ bs, b < 256) (i : Nat) (hi : i < bs.length) :
    valueLE bs / 256 ^ i % 256 = bs[i] := by
  have h1 := bytesLE_valueLE bs h
  have h2 := getElem_bytesLE bs.length (valueLE bs) i (by simpa [bytesLE_length] using hi)
  rw [← h2]
  congr 1

/-- Byte `i` of the reversed pattern is byte `n - 1 - i` of the pattern. -/
theorem reversed_digit (n x i : Nat) (hi : i < n) :
    reversed n x / 256 ^ i % 256 = x / 256 ^ (n - 1 - i) % 256 := by
  unfold reversed
  have hl : i < (bytesLE n x).reverse.length := by simpa [bytesLE_length] using hi
  rw [valueLE_digit _ (fun b hb => bytesLE_lt n x b (List.mem_reverse.mp hb)) i hl]
  rw [List.getElem_reverse, getElem_bytesLE]
  simp [bytesLE_length]

theorem to_pattern_lt (w : Nat) (v : Int) : to_pattern w v < 2 ^ w := by
  unfold to_pattern
  have hpos : (0 : Int) < 2 ^ w := by positivity
  have h1 := Int.emod_lt_of_pos v hpos
  have h2 := Int.emod_nonneg v hpos.ne'
  have h3 : (((v % 2 ^ w).toNat : Nat) : Int) = v % 2 ^ w := Int.toNat_of_nonneg h2
  have h4 : (((v % 2 ^ w).toNat : Nat) : Int) < ((2 ^ w : Nat) : Int) := by
    rw [h3]; push_cast; exact h1
  exact_mod_cast h4

theorem of_pattern_to_pattern (w : Nat) (hw : 0 < w) (v : Int) (hv : in_range w v) :
    of_pattern w (to_pattern w v) = v := by
  obtain ⟨h1, h2⟩ := hv
  have hp : (2 : Int) ^ w = 2 * 2 ^ (w - 1) := by
    obtain ⟨k, rfl⟩ : ∃ k, w = k + 1 := ⟨w - 1, by omega⟩
    simp [pow_succ]; ring
  have hpos : (0 : Int) < 2 ^ (w - 1) := by positivity
  unfold of_pattern to_pattern
  by_cases hneg : v < 0
  · have hm : v % 2 ^ w = v + 2 ^ w := by
      rw [← Int.add_emod_self]
      exact Int.emod_eq_of_lt (by omega) (by omega)
    have hnn : 0 ≤ v + 2 ^ w := by omega
    have hc : (((v + 2 ^ w).toNat : Nat) : Int) = v + 2 ^ w := Int.toNat_of_nonneg hnn
    rw [hm]
    have hlt : ¬ (v + 2 ^ w).toNat < 2 ^ (w - 1) := by
      intro hcon
      have : (((v + 2 ^ w).toNat : Nat) : Int) < ((2 ^ (w - 1) : Nat) : Int) := by exact_mod_cast hcon
      rw [hc] at this; push_cast at this; omega
    rw [if_neg hlt, hc]; ring
  · have hm : v % 2 ^ w = v := Int.emod_eq_of_lt (by omega) (by omega)
    have hc : ((v.toNat : Nat) : Int) = v := Int.toNat_of_nonneg (by omega)
    rw [hm]
    have hlt : v.toNat < 2 ^ (w - 1) := by
      have : ((v.toNat : Nat) : Int) < ((2 ^ (w - 1) : Nat) : Int) := by
        rw [hc]; push_cast; exact h2
      exact_mod_cast this
    rw [if_pos hlt, hc]

theorem to_pattern_of_pattern (w : Nat) (hw : 0 < w) (p : Nat) (hp : p < 2 ^ w) :
    to_pattern w (of_pattern w p) = p := by
  have hpw : (2 : Int) ^ w = 2 * 2 ^ (w - 1) := by
    obtain ⟨k, rfl⟩ : ∃ k, w = k + 1 := ⟨w - 1, by omega⟩
    simp [pow_succ]; ring
  have hpc : ((p : Nat) : Int) < 2 ^ w := by exact_mod_cast hp
  unfold of_pattern to_pattern
  split
  · rw [Int.emod_eq_of_lt (by omega) hpc]; simp
  · have : ((p : Int) - 2 ^ w) % 2 ^ w = p := by
      rw [← Int.add_emod_self, sub_add_cancel]
      exact Int.emod_eq_of_lt (by omega) hpc
    rw [this]; simp

theorem in_range_of_pattern (w : Nat) (hw : 0 < w) (p : Nat) (hp : p < 2 ^ w) :
    in_range w (of_pattern w p) := by
  have hpw : (2 : Int) ^ w = 2 * 2 ^ (w - 1) := by
    obtain ⟨k, rfl⟩ : ∃ k, w = k + 1 := ⟨w - 1, by omega⟩
    simp [pow_succ]; ring
  have hpc : ((p : Nat) : Int) < 2 ^ w := by exact_mod_cast hp
  unfold of_pattern in_range
  split
  · rename_i h
    have : ((p : Nat) : Int) < ((2 ^ (w - 1) : Nat) : Int) := by exact_mod_cast h
    push_cast at this
    constructor <;> omega
  · rename_i h
    have : ¬ ((p : Nat) : Int) < ((2 ^ (w - 1) : Nat) : Int) := by exact_mod_cast h
    push_cast at this
    constructor <;> omega

theorem two_pow_eight_mul (n : Nat) : 2 ^ (8 * n) = 256 ^ n := by
  rw [pow_mul]; norm_num

theorem swap_bytes_big (to_network : Bool) (inp : List Nat) :
    swap_bytes ByteOrder.big to_network inp = inp := by
  cases to_network <;> simp [swap_bytes, network_order]

theorem swap_bytes_little (to_network : Bool) (inp : List Nat) :
    swap_bytes ByteOrder.little to_network inp = inp.reverse := by
  cases to_network <;> simp [swap_bytes, network_order]

/-- On a big-endian host a swap hands the value back. -/
theorem swap_n_big (n : Nat) (hn : 0 < n) (v : Int) (to_network : Bool)
    (hv : in_range (8 * n) v) : swap_n n ByteOrder.big v to_network = v := by
  unfold swap_n
  rw [swap_bytes_big]
  simp only [load, store, List.reverse_reverse, valueLE_bytesLE]
  have h := to_pattern_lt (8 * n) v
  rw [two_pow_eight_mul] at h
  rw [Nat.mod_eq_of_lt h]
  exact of_pattern_to_pattern (8 * n) (by omega) v hv

/-- On a little-endian host a swap reverses the bytes of the bit pattern. -/
theorem swap_n_little (n : Nat) (v : Int) (to_network : Bool) :
    swap_n n ByteOrder.little v to_network
      = of_pattern (8 * n) (reversed n (to_pattern (8 * n) v)) := by
  unfold swap_n
  rw [swap_bytes_little]
  rfl

/-- The result of a swap is a value of the same width. -/
theorem swap_n_in_range (n : Nat) (hn : 0 < n) (host : ByteOrder) (v : Int)
    (to_network : Bool) : in_range (8 * n) (swap_n n host v to_network) := by
  unfold swap_n
  apply in_range_of_pattern (8 * n) (by omega)
  rw [two_pow_eight_mul]
  cases host
  · rw [swap_bytes_little]
    exact reversed_lt n _
  · rw [swap_bytes_big]
    simp only [load, store, List.reverse_reverse, valueLE_bytesLE]
    exact Nat.mod_lt _ (by positivity)

/-- Two swaps in a row, whatever the two direction flags, give the value back. -/
theorem swap_n_swap_n (n : Nat) (hn : 0 < n) (host : ByteOrder) (v : Int)
    (f g : Bool) (hv : in_range (8 * n) v) :
    swap_n n host (swap_n n host v f) g = v := by
  cases host
  · rw [swap_n_little, swap_n_little]
    have h1 : reversed n (to_pattern (8 * n) v) < 2 ^ (8 * n) := by
      rw [two_pow_eight_mul]; exact reversed_lt n _
    rw [to_pattern_of_pattern (8 * n) (by omega) _ h1]
    have h2 := to_pattern_lt (8 * n) v
    rw [two_pow_eight_mul] at h2
    rw [reversed_reversed n _ h2]
    exact of_pattern_to_pattern (8 * n) (by omega) v hv
  · rw [swap_n_big n hn _ g (swap_n_in_range n hn _ v f), swap_n_big n hn v f hv]

/-- Byte `i` of a value swapped on a little-endian host is byte `n - 1 - i` of the
value. -/
theorem byte_at_swap_n_little (n : Nat) (hn : 0 < n) (v : Int) (to_network : Bool)
    (i : Nat) (hi : i < n) :
    byte_at (8 * n) (swap_n n ByteOrder.little v to_network) i
      = byte_at (8 * n) v (n - 1 - i) := by
  unfold byte_at
  rw [swap_n_little]
  have h1 : reversed n (to_pattern (8 * n) v) < 2 ^ (8 * n) := by
    rw [two_pow_eight_mul]; exact reversed_lt n _
  rw [to_pattern_of_pattern (8 * n) (by omega) _ h1]
  exact reversed_digit n _ i hi

/-! ## hex rendering: facts -/

theorem hex_to_str_cons (b : Nat) (bs : List Nat) (len : Nat) :
    hex_to_str (b :: bs) (len + 1)
      = hex_digit (b / 16 % 16) :: hex_digit (b % 16) :: hex_to_str bs len := by
  simp [hex_to_str, List.flatMap_cons]

theorem hex_to_str_length (data : List Nat) :
    (hex_to_str data data.length).length = 2 * data.length := by
  induction data with
  | nil => rfl
  | cons b bs ih => rw [List.length_cons, hex_to_str_cons]; simp [ih]; omega

theorem hex_digit_lowercase (d : Nat) (hd : d < 16) :
    some (hex_digit d) = (lit "0123456789abcdef")[d]? := by
  interval_cases d <;> rfl

theorem hex_to_str_digits (data : List Nat) (h : ∀ b ∈ data, b < 256) (i : Nat)
    (hi : i < data.length) :
    (hex_to_str data data.length)[2 * i]? = (lit "0123456789abcdef")[data[i] / 16]? ∧
    (hex_to_str data data.length)[2 * i + 1]? = (lit "0123456789abcdef")[data[i] % 16]? := by
  induction data generalizing i with
  | nil => simp at hi
  | cons b bs ih =>
    have hb : b < 256 := h b (List.mem_cons_self _ _)
    rw [List.length_cons, hex_to_str_cons]
    cases i with
    | zero =>
      have h1 : b / 16 % 16 = b / 16 := Nat.mod_eq_of_lt (by omega)
      simp only [Nat.mul_zero, List.getElem?_cons_zero, List.getElem_cons_zero, Nat.zero_add,
        List.getElem?_cons_succ, h1]
      exact ⟨hex_digit_lowercase _ (by omega), hex_digit_lowercase _ (by omega)⟩
    | succ i =>
      have hi2 : i < bs.length := by simpa using hi
      have := ih (fun c hc => h c (List.mem_cons_of_mem _ hc)) i hi2
      have e1 : 2 * (i + 1) = (2 * i + 1) + 1 := by ring
      rw [e1]
      simp only [List.getElem?_cons_succ, List.getElem_cons_succ]
      exact this

/-! ## numerals: facts -/

theorem digits_rev_is_digit (fuel n : Nat) : ∀ c ∈ digits_rev fuel n, is_digit c = true := by
  induction fuel generalizing n with
  | zero => simp [digits_rev]
  | succ fuel ih =>
    intro c hc
    simp only [digits_rev, List.mem_cons] at hc
    rcases hc with hc | hc
    · subst hc
      have : n % 10 < 10 := Nat.mod_lt _ (by norm_num)
      simp [is_digit]; omega
    · split at hc
      · simp at hc
      · exact ih _ c hc

theorem decimal_value_reverse (ds : Str) : decimal_value ds.reverse = value_rev ds := by
  induction ds with
  | nil => rfl
  | cons c cs ih =>
    simp only [decimal_value] at ih
    simp only [decimal_value, List.reverse_cons, List.foldl_append, List.foldl_cons,
      List.foldl_nil, value_rev, ih]
    omega

theorem value_rev_digits_rev (fuel n : Nat) (h : n < fuel) : value_rev (digits_rev fuel n) = n := by
  induction fuel generalizing n with
  | zero => omega
  | succ fuel ih =>
    simp only [digits_rev, value_rev]
    split
    · simp only [value_rev]; omega
    · rw [ih (n / 10) (by omega)]; omega

theorem dec_digits_is_digit (n : Nat) : ∀ c ∈ dec_digits n, is_digit c = true := by
  intro c hc
  exact digits_rev_is_digit _ _ c (List.mem_reverse.mp hc)

theorem dec_digits_ne_nil (n : Nat) : dec_digits n ≠ [] := by
  simp [dec_digits, digits_rev]

theorem decimal_value_dec_digits (n : Nat) : decimal_value (dec_digits n) = n := by
  unfold dec_digits
  rw [decimal_value_reverse, value_rev_digits_rev _ _ (Nat.lt_succ_self n)]

/-- In a locale with plain numerals a digit or sign is no whitespace, decimal
point or separator. -/
theorem plain_numerals_at (loc : Locale) (h : plain_numerals loc = true) (c : Nat)
    (hc : is_digit c = true ∨ c = 43 ∨ c = 45) :
    loc.is_space c = false ∧ c ≠ loc.decimal_point ∧ is_sep loc c = false := by
  have hm : c ∈ numeral_bytes := by
    rcases hc with hc | hc | hc
    · simp only [is_digit, Bool.and_eq_true, decide_eq_true_eq] at hc
      obtain ⟨h1, h2⟩ := hc
      simp only [numeral_bytes]
      interval_cases c <;> simp
    · subst hc; simp [numeral_bytes]
    · subst hc; simp [numeral_bytes]
  have := List.all_eq_true.mp h c hm
  simp only [Bool.and_eq_true, Bool.not_eq_true', beq_eq_false_iff_ne, ne_eq] at this
  exact ⟨this.1.1, this.1.2, this.2⟩

/-- The digit loop over a run of digits that is not followed by a digit or by a
separator: the digits are accumulated and nothing else changes. -/
theorem scan_digits (loc : Locale) (h : plain_numerals loc = true) (ds rest : Str) (s : Scan)
    (hds : ∀ c ∈ ds, is_digit c = true)
    (hrest : ∀ c, rest.head? = some c → is_digit c = false ∧ is_sep loc c = false) :
    scan loc (ds ++ rest) s
      = { s with value := ds.foldl (fun a c => 10 * a + (c - 48)) s.value,
                 sep_pos := s.sep_pos + ds.length } := by
  induction ds generalizing s with
  | nil =>
    cases rest with
    | nil => simp [scan]
    | cons c cs =>
      obtain ⟨h1, h2⟩ := hrest c rfl
      simp [scan, h1, h2]
  | cons d ds ih =>
    have hd : is_digit d = true := hds d (List.mem_cons_self _ _)
    obtain ⟨-, h2, h3⟩ := plain_numerals_at loc h d (Or.inl hd)
    rw [List.cons_append, scan]
    simp only [h3, h2, hd, if_false, if_true, Bool.false_eq_true]
    rw [ih _ (fun c hc => hds c (List.mem_cons_of_mem _ hc))]
    simp only [List.foldl_cons, List.length_cons]
    congr 1
    omega

theorem scan_numeral (loc : Locale) (h : plain_numerals loc = true) (ds rest : Str)
    (hds : ∀ c ∈ ds, is_digit c = true)
    (hrest : ∀ c, rest.head? = some c → is_digit c = false ∧ is_sep loc c = false) :
    scan loc (ds ++ rest) scan_start
      = { value := decimal_value ds, sep_pos := ds.length, found_grouping := [],
          testfail := false } := by
  rw [scan_digits loc h ds rest _ hds hrest]
  simp [decimal_value, scan_start]

theorem extract_int_numeral (T : NumType) (loc : Locale) (sign ds rest : Str)
    (hloc : plain_numerals loc = true)
    (hsign : sign = [] ∨ sign = [43] ∨ sign = [45])
    (hne : ds ≠ [])
    (hds : ∀ c ∈ ds, is_digit c = true)
    (hrest : ∀ c, rest.head? = some c → is_digit c = false ∧ is_sep loc c = false)
    (hv : T.holds (numeral_value sign ds)) :
    extract_int T loc (sign ++ ds ++ rest) = some (numeral_value sign ds) := by
  have hscan := scan_numeral loc hloc ds rest hds hrest
  have hlen : ds.length ≠ 0 := by
    cases ds with
    | nil => exact absurd rfl hne
    | cons d ds => simp
  have hpos : (0 : Int) ≤ decimal_value ds := Int.natCast_nonneg _
  rcases hsign with rfl | rfl | rfl
  · cases ds with
    | nil => exact absurd rfl hne
    | cons d ds' =>
      have hd : is_digit d = true := hds d (List.mem_cons_self _ _)
      obtain ⟨h1, h2, h3⟩ := plain_numerals_at loc hloc d (Or.inl hd)
      have hd45 : (d == 45) = false := by
        simp only [is_digit, Bool.and_eq_true, decide_eq_true_eq] at hd
        simp; omega
      have hd43 : (d == 43) = false := by
        simp only [is_digit, Bool.and_eq_true, decide_eq_true_eq] at hd
        simp; omega
      simp only [numeral_value] at hv ⊢
      simp only [List.nil_append, List.cons_append] at hscan ⊢
      unfold extract_int
      rw [List.dropWhile_cons_of_neg (by simp [h1])]
      simp only [hd45, hd43, Bool.or_self, Bool.false_and, Bool.false_eq_true, if_false, hscan]
      simp only [hlen, false_and, false_or, Bool.false_eq_true, if_false, ne_eq,
        not_true_eq_false, reduceCtorEq]
      split
      · simpa using hv
      · have : (decimal_value (d :: ds') : Int) ≤ T.max_value := by
          have := hv.2; simpa using this
        simp [this]
  · obtain ⟨h1, h2, h3⟩ := plain_numerals_at loc hloc 43 (Or.inr (Or.inl rfl))
    have h2' : (43 == loc.decimal_point) = false := by simpa using h2
    have hv' : T.holds (decimal_value ds : Int) := by simpa [numeral_value] using hv
    have hnv : numeral_value [43] ds = (decimal_value ds : Int) := by simp [numeral_value]
    rw [hnv]
    simp only [List.cons_append, List.nil_append, List.append_assoc]
    unfold extract_int
    rw [List.dropWhile_cons_of_neg (by simp [h1])]
    simp only [h3, h2', show ((43 : Nat) == 45) = false from rfl,
      show ((43 : Nat) == 43) = true from rfl,
      Bool.false_or, Bool.not_false, Bool.and_self, if_true, hscan]
    simp only [hlen, false_and, false_or, Bool.false_eq_true, if_false, ne_eq,
      not_true_eq_false, reduceCtorEq]
    split
    · simp [hv']
    · simp [hv'.2]
  · obtain ⟨h1, h2, h3⟩ := plain_numerals_at loc hloc 45 (Or.inr (Or.inr rfl))
    have h2' : (45 == loc.decimal_point) = false := by simpa using h2
    have hv' : T.holds (-(decimal_value ds : Int)) := by simpa [numeral_value] using hv
    have hnv : numeral_value [45] ds = -(decimal_value ds : Int) := by simp [numeral_value]
    rw [hnv]
    simp only [List.cons_append, List.nil_append, List.append_assoc]
    unfold extract_int
    rw [List.dropWhile_cons_of_neg (by simp [h1])]
    simp only [h3, h2', show ((45 : Nat) == 45) = true from rfl,
      Bool.true_or, Bool.not_false, Bool.and_self, if_true, hscan]
    simp only [hlen, false_and, false_or, Bool.false_eq_true, if_false, ne_eq,
      not_true_eq_false, reduceCtorEq]
    split
    · simp [hv']
    · rename_i hu
      have hmin : T.min_value = 0 := by simp [NumType.min_value, hu]
      have hz : (decimal_value ds : Int) = 0 := by
        have := hv'.1; rw [hmin] at this; omega
      have hmax : (0 : Int) ≤ T.max_value := by
        have := hv'.2; rw [hz] at this; simpa using this
      rw [hz]
      simp [hmax]

theorem scan_no_digit (loc : Locale) (text : Str)
    (h : ∀ c, text.head? = some c → is_digit c = false) :
    ((scan loc text scan_start).sep_pos = 0 ∧ (scan loc text scan_start).found_grouping = [])
      ∨ (scan loc text scan_start).testfail = true := by
  cases text with
  | nil => simp [scan, scan_start]
  | cons d ds =>
    have hd := h d rfl
    simp only [scan, scan_start, hd]
    split
    · simp
    · split <;> simp

theorem extract_int_no_numeral (T : NumType) (loc : Locale) (text : Str)
    (h : starts_with_numeral loc text = false) : extract_int T loc text = none := by
  unfold starts_with_numeral at h
  unfold extract_int
  cases hd : text.dropWhile loc.is_space with
  | nil => rfl
  | cons c cs =>
    rw [hd] at h
    simp only [Bool.or_eq_false_iff] at h
    obtain ⟨hc, hs⟩ := h
    simp only
    rw [if_pos]
    apply scan_no_digit
    intro x hx
    split at hx
    · rename_i hsign
      cases cs with
      | nil => simp at hx
      | cons d ds =>
        simp only [List.head?_cons, Option.some.injEq] at hx
        subst hx
        simp only [Bool.and_eq_true, Bool.or_eq_true, Bool.not_eq_true'] at hsign
        have h45 : (c == 43 || c == 45) = true := by
          rcases hsign.1.1 with h | h <;> simp [h]
        simpa [h45] using hs
    · simp only [List.head?_cons, Option.some.injEq] at hx
      subst hx
      exact hc

/-! ## num_to_str and str_to_num: facts -/

theorem uses_grouping_no_grouping (env : Locale) : uses_grouping (no_grouping env) = false := rfl

theorem group_digits_no_grouping (env : Locale) (ds : Str) :
    group_digits (no_grouping env) ds = ds := by
  simp [group_digits, uses_grouping_no_grouping]

theorem group_digits_of_not_uses (loc : Locale) (h : uses_grouping loc = false) (ds : Str) :
    group_digits loc ds = ds := by
  simp [group_digits, h]

/-- Without grouping an integer that is not a character is written as its sign
and its decimal digits, whatever the two locales are. -/
theorem num_to_str_false_integer (env global : Locale) (T : NumType) (n : Int)
    (hT : T.is_char = false) :
    num_to_str env global (Number.integer T n) false
      = (if n < 0 then [45] else []) ++ dec_digits n.natAbs := by
  simp [num_to_str, insert, hT, group_digits_no_grouping]

/-- An integer of a character type is written as the one character whose code
it is, in either grouping mode and whatever the locales are. -/
theorem num_to_str_char (env global : Locale) (T : NumType) (n : Int) (grouping : Bool)
    (hT : T.is_char = true) :
    num_to_str env global (Number.integer T n) grouping = [to_pattern 8 n] := by
  simp [num_to_str, insert, hT]

/-- A character type is read as the first character after the whitespace. -/
theorem str_to_num_char (T : NumType) (loc : Locale) (text : Str) (c : Nat) (cs : Str)
    (hT : T.is_char = true) (hc : text.dropWhile loc.is_space = c :: cs) :
    str_to_num T loc text = if T.is_signed then of_pattern 8 c else (c : Int) := by
  unfold str_to_num extract
  rw [if_pos hT, hc]

/-- A numeral that is the whole digit run and in range is what `str_to_num`
returns. -/
theorem str_to_num_numeral (T : NumType) (loc : Locale) (sign ds rest : Str)
    (hT : T.is_char = false)
    (hloc : plain_numerals loc = true)
    (hsign : sign = [] ∨ sign = [43] ∨ sign = [45])
    (hne : ds ≠ [])
    (hds : ∀ c ∈ ds, is_digit c = true)
    (hrest : ∀ c, rest.head? = some c → is_digit c = false ∧ is_sep loc c = false)
    (hv : T.holds (numeral_value sign ds)) :
    str_to_num T loc (sign ++ ds ++ rest) = numeral_value sign ds := by
  unfold str_to_num extract
  rw [extract_int_numeral T loc sign ds rest hloc hsign hne hds hrest hv]
  simp [hT]

theorem str_to_num_no_numeral (T : NumType) (loc : Locale) (text : Str)
    (hT : T.is_char = false) (h : starts_with_numeral loc text = false) :
    str_to_num T loc text = 0 := by
  unfold str_to_num extract
  rw [extract_int_no_numeral T loc text h]
  simp [hT]

theorem str_to_num_blank (T : NumType) (loc : Locale) (text : Str)
    (h : text.dropWhile loc.is_space = []) : str_to_num T loc text = 0 := by
  unfold str_to_num extract extract_int
  rw [h]
  cases T.is_char <;> rfl

/-! ## digit grouping: facts -/

theorem intercalate_cons_cons (sep a b : Str) (cs : List Str) :
    List.intercalate sep (a :: b :: cs) = a ++ sep ++ List.intercalate sep (b :: cs) := by
  simp [List.intercalate, List.intersperse]

theorem intercalate_singleton (sep a : Str) : List.intercalate sep [a] = a := by
  simp [List.intercalate, List.intersperse]

theorem intercalate_append_singleton (sep a : Str) (cs : List Str) (h : cs ≠ []) :
    List.intercalate sep (cs ++ [a]) = List.intercalate sep cs ++ sep ++ a := by
  induction cs with
  | nil => exact absurd rfl h
  | cons c cs ih =>
    cases cs with
    | nil => simp [intercalate_cons_cons, intercalate_singleton]
    | cons d ds =>
      have := ih (by simp)
      rw [List.cons_append, List.cons_append, intercalate_cons_cons, ← List.cons_append, this,
        intercalate_cons_cons]
      simp

theorem reverse_intercalate (sep : Nat) (cs : List Str) :
    (List.intercalate [sep] cs).reverse
      = List.intercalate [sep] (cs.map List.reverse).reverse := by
  induction cs with
  | nil => simp [List.intercalate]
  | cons c cs ih =>
    cases cs with
    | nil => simp [intercalate_singleton]
    | cons d ds =>
      have hR : (List.map List.reverse (c :: d :: ds)).reverse
          = (List.map List.reverse (d :: ds)).reverse ++ [c.reverse] := by simp
      rw [hR, intercalate_append_singleton _ _ _ (by simp), intercalate_cons_cons,
        List.reverse_append, List.reverse_append, ih]
      simp

theorem group_size_succ (g : Nat) (gs : List Nat) (k : Nat) :
    group_size (g :: gs) (k + 1) = group_size (if gs = [] then [g] else gs) k := by
  cases gs with
  | nil => simp [group_size]
  | cons h t =>
    simp only [group_size, List.length_cons, Nat.add_sub_cancel, reduceCtorEq, if_false]
    have : min (k + 1) (t.length + 1) = min k t.length + 1 := by omega
    rw [this]
    simp [List.getD_cons_succ]

theorem add_grouping_rev_groups (sep : Nat) (fuel : Nat) (gl : List Nat) (ds : Str)
    (hf : ds.length ≤ fuel) (hne : ds ≠ []) :
    ∃ cs : List Str, add_grouping_rev sep fuel gl ds = List.intercalate [sep] cs ∧
      cs.flatten = ds ∧ cs ≠ [] ∧ follows_grouping gl cs := by
  induction fuel generalizing gl ds with
  | zero =>
    have : ds = [] := List.eq_nil_of_length_eq_zero (by omega)
    exact absurd this hne
  | succ fuel ih =>
    have single : ∀ g : Nat, ¬ (limited g = true ∧ g < ds.length) → group_size gl 0 = g →
        ∃ cs : List Str, ds = List.intercalate [sep] cs ∧
          cs.flatten = ds ∧ cs ≠ [] ∧ follows_grouping gl cs := by
      intro g hg hsz
      refine ⟨[ds], by simp [intercalate_singleton], by simp, by simp, ?_⟩
      intro k hk
      have hk0 : k = 0 := by simpa using hk
      subst hk0
      simp only [List.length_singleton, Nat.lt_irrefl, if_false, List.getElem_cons_zero, hsz]
      refine ⟨hne, fun hl => ?_⟩
      by_contra hcon
      exact hg ⟨hl, by omega⟩
    cases gl with
    | nil =>
      have h0 : add_grouping_rev sep (fuel + 1) [] ds = ds := by simp [add_grouping_rev]
      rw [h0]
      exact single 0 (by simp [limited]) (by simp [group_size])
    | cons g gs =>
      by_cases hg : limited g = true ∧ g < ds.length
      · have hstep : add_grouping_rev sep (fuel + 1) (g :: gs) ds
            = ds.take g ++ sep :: add_grouping_rev sep fuel (if gs = [] then [g] else gs)
                (ds.drop g) := by
          simp [add_grouping_rev, hg.1, hg.2]
        have hgpos : 0 < g := by
          have := hg.1; simp [limited] at this; omega
        have hdrop_ne : ds.drop g ≠ [] := by
          intro h
          have := congrArg List.length h
          simp at this; omega
        have hdrop_len : (ds.drop g).length ≤ fuel := by simp; omega
        obtain ⟨cs, h1, h2, h3, h4⟩ := ih (if gs = [] then [g] else gs) (ds.drop g) hdrop_len hdrop_ne
        obtain ⟨c, cs', rfl⟩ : ∃ c cs', cs = c :: cs' := by
          cases cs with
          | nil => exact absurd rfl h3
          | cons c cs' => exact ⟨c, cs', rfl⟩
        refine ⟨ds.take g :: c :: cs', ?_, ?_, by simp, ?_⟩
        · rw [hstep, h1, intercalate_cons_cons]; simp
        · rw [List.flatten_cons, h2, List.take_append_drop]
        · intro k hk
          cases k with
          | zero =>
            simp only [List.length_cons, List.getElem_cons_zero]
            rw [if_pos (by omega)]
            refine ⟨?_, ?_⟩
            · simpa [group_size] using hg.1
            · simp [group_size]; omega
          | succ k =>
            have hk' : k < (c :: cs').length := by simpa using hk
            have := h4 k hk'
            rw [group_size_succ]
            simp only [List.length_cons, List.getElem_cons_succ] at this ⊢
            by_cases hlast : k + 1 < cs'.length + 1
            · rw [if_pos hlast] at this
              rw [if_pos (by omega)]
              exact this
            · rw [if_neg hlast] at this
              rw [if_neg (by omega)]
              exact this
      · have h0 : add_grouping_rev sep (fuel + 1) (g :: gs) ds = ds := by
          simp only [add_grouping_rev]
          rw [if_neg]
          simpa using hg
        rw [h0]
        exact single g hg (by simp [group_size])

theorem follows_grouping_map_reverse (gl : List Nat) (cs : List Str)
    (h : follows_grouping gl cs) : follows_grouping gl (cs.map List.reverse) := by
  intro k hk
  have hk' : k < cs.length := by simpa using hk
  have := h k hk'
  simp only [List.length_map, List.getElem_map, List.length_reverse, ne_eq,
    List.reverse_eq_nil_iff]
  exact this

theorem group_digits_groups (loc : Locale) (ds : Str) (hne : ds ≠ []) :
    ∃ groups : List Str,
      group_digits loc ds = List.intercalate [loc.thousands_sep] groups.reverse ∧
      groups.reverse.flatten = ds ∧ follows_grouping loc.grouping groups := by
  by_cases hu : uses_grouping loc = true
  · obtain ⟨cs, h1, h2, -, h4⟩ := add_grouping_rev_groups loc.thousands_sep ds.length
      loc.grouping ds.reverse (by simp) (by simpa using hne)
    refine ⟨cs.map List.reverse, ?_, ?_, follows_grouping_map_reverse _ _ h4⟩
    · simp only [group_digits, hu, if_true]
      rw [h1, reverse_intercalate]
    · have := congrArg List.reverse h2
      rw [List.reverse_flatten, List.reverse_reverse] at this
      exact this
  · have hu' : uses_grouping loc = false := by simpa using hu
    refine ⟨[ds], by simp [group_digits_of_not_uses loc hu', intercalate_singleton], by simp, ?_⟩
    intro k hk
    have hk0 : k = 0 := by simpa using hk
    subst hk0
    simp only [List.length_singleton, Nat.lt_irrefl, if_false, List.getElem_cons_zero]
    refine ⟨hne, fun hl => ?_⟩
    exfalso
    unfold uses_grouping at hu'
    unfold group_size at hl
    cases hg : loc.grouping with
    | nil => rw [hg] at hl; simp [limited] at hl
    | cons g gs =>
      rw [hg] at hl hu'
      simp at hl hu'
      rw [hu'] at hl
      exact absurd hl (by simp)

/-! ## the claims -/

/-- C1 (the code departs from it): `join` leaves out the separator after leading
empty strings.  On the two-element sequence `""`, `"a"` with separator `","` the
code returns `"a"`, while the elements with the separator between each adjacent
pair are `",a"`. -/
theorem join_leading_empty_loses_separator :
    join [lit "", lit "a"] (lit ",") = lit "a" ∧
    List.intercalate (lit ",") [lit "", lit "a"] = lit ",a" ∧
    join [lit "", lit "a"] (lit ",") ≠ List.intercalate (lit ",") [lit "", lit "a"] := by
  decide

/-- C2: for the widths 16, 32 and 64, on either host byte order, converting a
value to network order and back, or from network order and back to it, gives
the value again. -/
theorem swap_round_trip (host : ByteOrder) (a b c : Int)
    (ha : in_range 16 a) (hb : in_range 32 b) (hc : in_range 64 c) :
    (swap2 host (swap2 host a true) false = a ∧ swap2 host (swap2 host a false) true = a) ∧
    (swap4 host (swap4 host b true) false = b ∧ swap4 host (swap4 host b false) true = b) ∧
    (swap8 host (swap8 host c true) false = c ∧ swap8 host (swap8 host c false) true = c) :=
  ⟨⟨swap_n_swap_n 2 (by decide) host a true false ha,
    swap_n_swap_n 2 (by decide) host a false true ha⟩,
   ⟨swap_n_swap_n 4 (by decide) host b true false hb,
    swap_n_swap_n 4 (by decide) host b false true hb⟩,
   ⟨swap_n_swap_n 8 (by decide) host c true false hc,
    swap_n_swap_n 8 (by decide) host c false true hc⟩⟩

/-- C2 at concrete values on a little-endian host. -/
theorem swap_round_trip_witness :
    (swap2 ByteOrder.little (swap2 ByteOrder.little (-2) true) false = -2 ∧
      swap2 ByteOrder.little (swap2 ByteOrder.little (-2) false) true = -2) ∧
    (swap4 ByteOrder.little (swap4 ByteOrder.little 305419896 true) false = 305419896 ∧
      swap4 ByteOrder.little (swap4 ByteOrder.little 305419896 false) true = 305419896) ∧
    (swap8 ByteOrder.little (swap8 ByteOrder.little (-9223372036854775808) true) false
        = -9223372036854775808 ∧
      swap8 ByteOrder.little (swap8 ByteOrder.little (-9223372036854775808) false) true
        = -9223372036854775808) :=
  swap_round_trip ByteOrder.little (-2) 305419896 (-9223372036854775808)
    (by decide) (by decide) (by decide)

/-- C3: for the widths 16, 32 and 64, every value of the width and either
direction flag, a swap is total, its result is a value of the same width, and
that result is the input itself on a big-endian host and the input with its
bytes in fully reversed order (byte `i` of the result is byte `W/8 - 1 - i` of
the input) on a little-endian host. -/
theorem swap_copies_or_reverses (host : ByteOrder) (to_network : Bool) (a b c : Int)
    (ha : in_range 16 a) (hb : in_range 32 b) (hc : in_range 64 c) :
    (host = ByteOrder.big →
      swap2 host a to_network = a ∧ swap4 host b to_network = b ∧
        swap8 host c to_network = c) ∧
    (host = ByteOrder.little →
      (∀ i, i < 2 → byte_at 16 (swap2 host a to_network) i = byte_at 16 a (1 - i)) ∧
      (∀ i, i < 4 → byte_at 32 (swap4 host b to_network) i = byte_at 32 b (3 - i)) ∧
      (∀ i, i < 8 → byte_at 64 (swap8 host c to_network) i = byte_at 64 c (7 - i))) ∧
    in_range 16 (swap2 host a to_network) ∧ in_range 32 (swap4 host b to_network) ∧
      in_range 64 (swap8 host c to_network) := by
  refine ⟨?_, ?_, swap_n_in_range 2 (by decide) host a to_network,
    swap_n_in_range 4 (by decide) host b to_network,
    swap_n_in_range 8 (by decide) host c to_network⟩
  · rintro rfl
    exact ⟨swap_n_big 2 (by decide) a to_network ha, swap_n_big 4 (by decide) b to_network hb,
      swap_n_big 8 (by decide) c to_network hc⟩
  · rintro rfl
    exact ⟨fun i hi => byte_at_swap_n_little 2 (by decide) a to_network i hi,
      fun i hi => byte_at_swap_n_little 4 (by decide) b to_network i hi,
      fun i hi => byte_at_swap_n_little 8 (by decide) c to_network i hi⟩

/-- C3 at the 16-bit extreme `0x8000`, on a little-endian host: the low byte of
the result is the high byte `0x80` of the input. -/
theorem swap_copies_or_reverses_witness :
    byte_at 16 (swap2 ByteOrder.little (-32768) true) 0 = byte_at 16 (-32768) (1 - 0) ∧
    byte_at 16 (-32768) (1 - 0) = 128 ∧ swap2 ByteOrder.little (-32768) true = 128 :=
  ⟨((swap_copies_or_reverses ByteOrder.little true (-32768) 2147483647 (-1)
      (by decide) (by decide) (by decide)).2.1 rfl).1 0 (by decide), by decide, by decide⟩

/-- C4: `hex_to_str` of a buffer of `len` bytes is a string of `2 * len`
characters whose characters `2 * i` and `2 * i + 1` are the high and the low
nibble of byte `i` as lowercase hexadecimal digits; the empty buffer gives the
empty string and the bytes `00 ff 1a` give `"00ff1a"`. -/
theorem hex_to_str_two_digits_per_byte (data : List Nat) (h : ∀ b ∈ data, b < 256) :
    (hex_to_str data data.length).length = 2 * data.length ∧
    (∀ i (hi : i < data.length),
      (hex_to_str data data.length)[2 * i]? = (lit "0123456789abcdef")[data[i] / 16]? ∧
      (hex_to_str data data.length)[2 * i + 1]? = (lit "0123456789abcdef")[data[i] % 16]?) ∧
    hex_to_str [] 0 = lit "" ∧
    hex_to_str [0, 255, 26] 3 = lit "00ff1a" :=
  ⟨hex_to_str_length data, fun i hi => hex_to_str_digits data h i hi, by decide, by decide⟩

/-- C4 at the buffer `00 ff 1a`: six characters, the third one `f`. -/
theorem hex_to_str_two_digits_per_byte_witness :
    (hex_to_str [0, 255, 26] 3).length = 6 ∧ (hex_to_str [0, 255, 26] 3)[2]? = some 102 :=
  ⟨(hex_to_str_two_digits_per_byte [0, 255, 26] (by decide)).1,
    by decide⟩

/-- C5 as stated fails: `int8_t` is a character type to the stream, and with
`grouping` false its value 65 is written as the character `A`, not as the
decimal digits `65`. -/
theorem num_to_str_false_writes_int8_as_char :
    NumType.int8.holds 65 ∧
    num_to_str classic classic (Number.integer NumType.int8 65) false = lit "A" ∧
    num_to_str classic classic (Number.integer NumType.int8 65) false ≠ lit "65" := by
  decide

/-- C5, amended: with `grouping` false an integer of a type of 16, 32 or 64 bits
is written without any separator, whatever the active and the environment
locale define: the text is an optional minus sign followed by the decimal
digits of the value, and those are a non-empty run of ASCII digits whose
decimal value is the magnitude.  A value of `int8_t` or `uint8_t` is written as
the one character whose code it is. -/
theorem num_to_str_false_is_plain_decimal (env global : Locale) (T : NumType) (n : Int) :
    (T.is_char = false →
      num_to_str env global (Number.integer T n) false
        = (if n < 0 then [45] else []) ++ dec_digits n.natAbs ∧
      dec_digits n.natAbs ≠ [] ∧
      (∀ c ∈ dec_digits n.natAbs, is_digit c = true) ∧
      decimal_value (dec_digits n.natAbs) = n.natAbs) ∧
    (T.is_char = true →
      num_to_str env global (Number.integer T n) false = [to_pattern 8 n]) :=
  ⟨fun hT => ⟨num_to_str_false_integer env global T n hT, dec_digits_ne_nil _,
      dec_digits_is_digit _, decimal_value_dec_digits _⟩,
   fun hT => num_to_str_char env global T n false hT⟩

/-- C5, amended, at 1234567, with an environment locale and an active locale
that both group by threes: the text is `1234567`. -/
theorem num_to_str_false_is_plain_decimal_witness :
    num_to_str en_US de_DE (Number.integer NumType.int32 1234567) false = lit "1234567" :=
  ((num_to_str_false_is_plain_decimal en_US de_DE NumType.int32 1234567).1 rfl).1.trans
    (by decide)

/-- C7 as stated fails: `uint8_t` is a character type to the stream, and with
`grouping` true, under an active locale without grouping, its value 65 is
written as the character `A`, not as the plain decimal text `65`. -/
theorem num_to_str_true_writes_uint8_as_char :
    NumType.uint8.holds 65 ∧ uses_grouping classic = false ∧
    num_to_str classic classic (Number.integer NumType.uint8 65) true = lit "A" ∧
    num_to_str classic classic (Number.integer NumType.uint8 65) true ≠ lit "65" := by
  decide

/-- C7, amended: with `grouping` true an integer of a type of 16, 32 or 64 bits
is written as an optional minus sign followed by its decimal digits cut into
groups, the thousands separator of the active locale between the groups, the
groups cut from the right as the grouping of the active locale says; when the
active locale does not group, the text is the plain decimal text.  A value of
`int8_t` or `uint8_t` is written as the one character whose code it is. -/
theorem num_to_str_true_follows_active_grouping (env global : Locale) (T : NumType) (n : Int) :
    (T.is_char = false →
      (∃ groups : List Str,
        num_to_str env global (Number.integer T n) true
          = (if n < 0 then [45] else [])
              ++ List.intercalate [global.thousands_sep] groups.reverse ∧
        groups.reverse.flatten = dec_digits n.natAbs ∧
        follows_grouping global.grouping groups) ∧
      (uses_grouping global = false →
        num_to_str env global (Number.integer T n) true
          = (if n < 0 then [45] else []) ++ dec_digits n.natAbs)) ∧
    (T.is_char = true →
      num_to_str env global (Number.integer T n) true = [to_pattern 8 n]) := by
  refine ⟨fun hT => ⟨?_, ?_⟩, fun hT => num_to_str_char env global T n true hT⟩
  · obtain ⟨groups, h1, h2, h3⟩ := group_digits_groups global (dec_digits n.natAbs)
      (dec_digits_ne_nil _)
    exact ⟨groups, by simp [num_to_str, insert, hT, h1], h2, h3⟩
  · intro hu
    simp [num_to_str, insert, hT, group_digits_of_not_uses global hu]

/-- C7, amended, at -1234567 with an active locale that groups by threes with a
comma, where the text is `-1,234,567`, and at 1234567 with the `"C"` locale
active. -/
theorem num_to_str_true_follows_active_grouping_witness :
    (∃ groups : List Str,
      num_to_str de_DE en_US (Number.integer NumType.int32 (-1234567)) true
        = (if (-1234567 : Int) < 0 then [45] else [])
            ++ List.intercalate [en_US.thousands_sep] groups.reverse ∧
      groups.reverse.flatten = dec_digits (-1234567 : Int).natAbs ∧
      follows_grouping en_US.grouping groups) ∧
    num_to_str de_DE en_US (Number.integer NumType.int32 (-1234567)) true = lit "-1,234,567" ∧
    num_to_str de_DE classic (Number.integer NumType.int32 1234567) true = lit "1234567" :=
  ⟨((num_to_str_true_follows_active_grouping de_DE en_US NumType.int32 (-1234567)).1 rfl).1,
   by decide,
   (((num_to_str_true_follows_active_grouping de_DE classic NumType.int32 1234567).1 rfl).2
     rfl).trans (by decide)⟩

/-- C9 as stated fails.  For `int16_t` the longest prefix of `99999` that is a
numeral in range is `9999`, and `str_to_num` returns 0, not 9999; for `int8_t`,
a character type, `42abc` gives the character `4`, 52; and under an active
locale that groups by threes with a comma, what follows the digits counts:
`42,abc` read as `int` gives 0, not 42, and `1,234x` gives 1234, not 1. -/
theorem str_to_num_not_longest_in_range :
    NumType.int16.holds (numeral_value [] (lit "9999")) ∧
    ¬ NumType.int16.holds (numeral_value [] (lit "99999")) ∧
    numeral_value [] (lit "9999") = 9999 ∧
    str_to_num NumType.int16 classic (lit "9999" ++ lit "9") = 0 ∧
    NumType.int8.holds (numeral_value [] (lit "42")) ∧
    str_to_num NumType.int8 classic (lit "42" ++ lit "abc") = 52 ∧
    str_to_num NumType.int32 en_US (lit "42" ++ lit ",abc") = 0 ∧
    str_to_num NumType.int32 en_US (lit "1" ++ lit ",234x") = 1234 := by
  decide

/-- C9, amended: for an integer type of 16, 32 or 64 bits, when the text starts
with an optional sign and a run of digits, the rest does not start with a
further digit nor, under an active locale that groups digits, with the
thousands separator of that locale, and the numeral is in the range of the
type, `str_to_num` returns the value of that numeral, whatever else the rest
is. -/
theorem str_to_num_leading_numeral (T : NumType) (loc : Locale) (sign ds rest : Str)
    (hT : T.is_char = false)
    (hloc : plain_numerals loc = true)
    (hsign : sign = [] ∨ sign = [43] ∨ sign = [45])
    (hne : ds ≠ [])
    (hds : ∀ c ∈ ds, is_digit c = true)
    (hrest : ∀ c, rest.head? = some c → is_digit c = false ∧ is_sep loc c = false)
    (hv : T.holds (numeral_value sign ds)) :
    str_to_num T loc (sign ++ ds ++ rest) = numeral_value sign ds :=
  str_to_num_numeral T loc sign ds rest hT hloc hsign hne hds hrest hv

/-- C9, amended, at `42abc` and `-42abc` read as `int`, and at `42abc` under a
locale that groups digits. -/
theorem str_to_num_leading_numeral_witness :
    str_to_num NumType.int32 classic (lit "42abc") = 42 ∧
    str_to_num NumType.int32 classic (lit "-42abc") = -42 ∧
    str_to_num NumType.int32 en_US (lit "42abc") = 42 :=
  ⟨str_to_num_leading_numeral NumType.int32 classic [] (lit "42") (lit "abc") rfl (by decide)
      (Or.inl rfl) (by decide) (by decide) (by decide) (by decide),
   str_to_num_leading_numeral NumType.int32 classic (lit "-") (lit "42") (lit "abc") rfl
      (by decide) (Or.inr (Or.inr rfl)) (by decide) (by decide) (by decide) (by decide),
   str_to_num_leading_numeral NumType.int32 en_US [] (lit "42") (lit "abc") rfl (by decide)
      (Or.inl rfl) (by decide) (by decide) (by decide) (by decide)⟩

/-- C10 as stated fails: `int8_t` is a fixed-width integer type, its value 32 is
written as the character of code 32, a blank, and reading that back fails and
gives 0. -/
theorem round_trip_fails_for_int8 :
    NumType.int8.holds 32 ∧
    num_to_str classic classic (Number.integer NumType.int8 32) false = lit " " ∧
    str_to_num NumType.int8 classic
      (num_to_str classic classic (Number.integer NumType.int8 32) false) = 0 := by
  decide

/-- C10, amended: for a fixed-width integer type of 16, 32 or 64 bits and every
value of the type, formatting without grouping and then parsing gives the
value again, whatever the environment locale is, under an active locale in
which digits and signs are plain. -/
theorem str_to_num_num_to_str (T : NumType) (env global : Locale) (n : Int)
    (hT : T.is_char = false) (hloc : plain_numerals global = true) (hn : T.holds n) :
    str_to_num T global (num_to_str env global (Number.integer T n) false) = n := by
  rw [num_to_str_false_integer env global T n hT]
  have hval : numeral_value (if n < 0 then [45] else []) (dec_digits n.natAbs) = n := by
    unfold numeral_value
    rw [decimal_value_dec_digits]
    by_cases h : n < 0
    · simp only [h, if_true]; omega
    · simp only [h, if_false]
      simp only [List.nil_eq, reduceCtorEq, if_false]
      omega
  have h := str_to_num_numeral T global (if n < 0 then [45] else []) (dec_digits n.natAbs) []
    hT hloc (by by_cases h : n < 0 <;> simp [h]) (dec_digits_ne_nil _) (dec_digits_is_digit _)
    (by simp) (by rw [hval]; exact hn)
  rw [hval] at h
  simpa using h

/-- C10, amended, at the least `int64_t` value, with an environment locale that
groups digits. -/
theorem str_to_num_num_to_str_witness :
    str_to_num NumType.int64 classic
      (num_to_str en_US classic (Number.integer NumType.int64 (-9223372036854775808)) false)
      = -9223372036854775808 :=
  str_to_num_num_to_str NumType.int64 en_US classic (-9223372036854775808) rfl (by decide)
    (by decide)

/-! ## trimming: facts -/

theorem ltrim_all_ws (h : Host) (s : Str) (hs : all_ws h s) : ltrim h s = [] := by
  unfold ltrim
  induction s with
  | nil => rfl
  | cons b s ih =>
    rw [List.dropWhile_cons_of_pos (hs b (List.mem_cons_self _ _))]
    exact ih (fun c hc => hs c (List.mem_cons_of_mem _ hc))

theorem ltrim_append_all_ws (h : Host) (pre t : Str) (hpre : all_ws h pre) :
    ltrim h (pre ++ t) = ltrim h t := by
  unfold ltrim
  induction pre with
  | nil => rfl
  | cons b pre ih =>
    rw [List.cons_append, List.dropWhile_cons_of_pos (hpre b (List.mem_cons_self _ _))]
    exact ih (fun c hc => hpre c (List.mem_cons_of_mem _ hc))

theorem ltrim_of_head (h : Host) (t : Str) (b : Nat) (hb : t.head? = some b)
    (hw : is_ws h b = false) : ltrim h t = t := by
  cases t with
  | nil => simp at hb
  | cons c t =>
    simp only [List.head?_cons, Option.some.injEq] at hb
    subst hb
    unfold ltrim
    rw [List.dropWhile_cons_of_neg (by simp [hw])]

theorem all_ws_reverse (h : Host) (s : Str) (hs : all_ws h s) : all_ws h s.reverse :=
  fun b hb => hs b (List.mem_reverse.mp hb)

theorem all_ws_append (h : Host) (s t : Str) (hs : all_ws h s) (ht : all_ws h t) :
    all_ws h (s ++ t) := by
  intro b hb
  rcases List.mem_append.mp hb with hb | hb
  · exact hs b hb
  · exact ht b hb

theorem rtrim_eq (h : Host) (s : Str) : rtrim h s = (ltrim h s.reverse).reverse := rfl

theorem rtrim_all_ws (h : Host) (s : Str) (hs : all_ws h s) : rtrim h s = [] := by
  rw [rtrim_eq, ltrim_all_ws h _ (all_ws_reverse h s hs)]
  rfl

theorem rtrim_append_all_ws (h : Host) (t post : Str) (hpost : all_ws h post) :
    rtrim h (t ++ post) = rtrim h t := by
  rw [rtrim_eq, List.reverse_append, ltrim_append_all_ws h _ _ (all_ws_reverse h post hpost)]
  rfl

theorem rtrim_of_last (h : Host) (t : Str) (b : Nat) (hb : t.getLast? = some b)
    (hw : is_ws h b = false) : rtrim h t = t := by
  rw [rtrim_eq, ltrim_of_head h t.reverse b (by simpa using hb) hw, List.reverse_reverse]

/-- The string splits into the whitespace `ltrim` erases and what `ltrim` leaves,
which is empty or starts with a byte that is not whitespace. -/
theorem ltrim_split (h : Host) (s : Str) :
    s = s.takeWhile (is_ws h) ++ ltrim h s ∧ all_ws h (s.takeWhile (is_ws h)) ∧
    (ltrim h s = [] ∨ ∃ b, (ltrim h s).head? = some b ∧ is_ws h b = false) := by
  refine ⟨(List.takeWhile_append_dropWhile _ _).symm, fun b hb => List.mem_takeWhile_imp hb, ?_⟩
  have := List.head?_dropWhile_not (is_ws h) s
  unfold ltrim
  cases hd : (s.dropWhile (is_ws h)) with
  | nil => exact Or.inl rfl
  | cons c cs =>
    rw [hd] at this
    exact Or.inr ⟨c, rfl, by simpa using this⟩

/-- The string splits into what `rtrim` leaves, which is empty or ends with a
byte that is not whitespace, and the whitespace `rtrim` erases. -/
theorem rtrim_split (h : Host) (s : Str) :
    s = rtrim h s ++ (s.reverse.takeWhile (is_ws h)).reverse ∧
    all_ws h (s.reverse.takeWhile (is_ws h)).reverse ∧
    (rtrim h s = [] ∨ ∃ b, (rtrim h s).getLast? = some b ∧ is_ws h b = false) := by
  obtain ⟨h1, h2, h3⟩ := ltrim_split h s.reverse
  refine ⟨?_, all_ws_reverse h _ h2, ?_⟩
  · have := congrArg List.reverse h1
    rw [List.reverse_reverse, List.reverse_append] at this
    exact this
  · rcases h3 with h3 | ⟨b, hb, hw⟩
    · left; rw [rtrim_eq, h3]; rfl
    · right; exact ⟨b, by rw [rtrim_eq, List.getLast?_reverse]; exact hb, hw⟩

/-- What the trimming functions return on whitespace, a trimmed string,
whitespace. -/
theorem trim_of_parts (h : Host) (pre t post : Str) (hpre : all_ws h pre)
    (hpost : all_ws h post) (ht : trimmed h t) :
    trim h (pre ++ t ++ post) = t ∧ ltrim h (rtrim h (pre ++ t ++ post)) = t := by
  rcases ht with rfl | ⟨⟨b, hb, hbw⟩, ⟨c, hc, hcw⟩⟩
  · have hall : all_ws h (pre ++ [] ++ post) := by
      simpa using all_ws_append h pre post hpre hpost
    constructor
    · unfold trim; rw [ltrim_all_ws h _ hall]; rfl
    · rw [rtrim_all_ws h _ hall]; rfl
  · have hne : t ≠ [] := by rintro rfl; simp at hb
    constructor
    · unfold trim
      rw [List.append_assoc, ltrim_append_all_ws h _ _ hpre,
        ltrim_of_head h (t ++ post) b (by rw [List.head?_append_of_ne_nil _ hne]; exact hb) hbw,
        rtrim_append_all_ws h _ _ hpost, rtrim_of_last h t c hc hcw]
    · rw [rtrim_append_all_ws h _ _ hpost,
        rtrim_of_last h (pre ++ t) c (by rw [List.getLast?_append_of_ne_nil _ hne]; exact hc) hcw,
        ltrim_append_all_ws h _ _ hpre, ltrim_of_head h t b hb hbw]

/-- Every string is whitespace, its trimmed middle, whitespace, and `trim`
returns the middle. -/
theorem trim_parts (h : Host) (s : Str) :
    ∃ pre post, s = pre ++ trim h s ++ post ∧ all_ws h pre ∧ all_ws h post ∧
      trimmed h (trim h s) := by
  obtain ⟨h1, h2, h3⟩ := ltrim_split h s
  obtain ⟨k1, k2, k3⟩ := rtrim_split h (ltrim h s)
  refine ⟨s.takeWhile (is_ws h), ((ltrim h s).reverse.takeWhile (is_ws h)).reverse, ?_, h2, k2, ?_⟩
  · unfold trim
    rw [List.append_assoc, ← k1]
    exact h1
  · unfold trim
    rcases k3 with k3 | ⟨c, hc, hcw⟩
    · exact Or.inl k3
    · right
      have hne : rtrim h (ltrim h s) ≠ [] := by intro hn; rw [hn] at hc; simp at hc
      refine ⟨?_, ⟨c, hc, hcw⟩⟩
      rcases h3 with h3 | ⟨b, hb, hbw⟩
      · rw [h3] at hne; exact absurd rfl hne
      · refine ⟨b, ?_, hbw⟩
        rw [k1, List.head?_append_of_ne_nil _ hne] at hb
        exact hb

/-! ## case folding: facts -/

theorem iequals_char_iff (h : Host) (ca cb : Nat) :
    iequals_char h ca cb = true ↔ lower_char h ca = lower_char h cb := by
  unfold iequals_char lower_char
  constructor
  · intro hp
    rcases Bool.or_eq_true_iff.mp hp with hp | hp
    · rw [beq_iff_eq.mp hp]
    · exact beq_iff_eq.mp hp
  · intro hp
    exact Bool.or_eq_true_iff.mpr (Or.inr (beq_iff_eq.mpr hp))

/-- The strings are equal to `iequals` exactly when their folded characters are
the same sequence. -/
theorem iequals_iff_map (h : Host) (a b : Str) :
    iequals h a b = true ↔ a.map (lower_char h) = b.map (lower_char h) := by
  unfold iequals
  induction a generalizing b with
  | nil =>
    cases b with
    | nil => simp
    | cons d b => simp
  | cons c a ih =>
    cases b with
    | nil => simp
    | cons d b =>
      have := ih b
      simp only [Bool.and_eq_true, beq_iff_eq] at this
      simp only [List.length_cons, List.zip_cons_cons, List.all_cons, Bool.and_eq_true,
        beq_iff_eq, List.map_cons, List.cons.injEq, Nat.add_right_cancel_iff, iequals_char_iff]
      constructor
      · rintro ⟨hl, hc, hall⟩
        exact ⟨hc, this.mp ⟨hl, hall⟩⟩
      · rintro ⟨hc, hm⟩
        have := this.mpr hm
        exact ⟨this.1, hc, this.2⟩

theorem map_eq_map_congr {β γ : Type} (f : Nat → β) (g : Nat → γ) (a b : Str)
    (hfg : ∀ c ∈ a, ∀ d ∈ b, (f c = f d ↔ g c = g d)) :
    a.map f = b.map f ↔ a.map g = b.map g := by
  induction a generalizing b with
  | nil => cases b <;> simp
  | cons c a ih =>
    cases b with
    | nil => simp
    | cons d b =>
      have h1 := hfg c (List.mem_cons_self _ _) d (List.mem_cons_self _ _)
      have h2 := ih b (fun x hx y hy =>
        hfg x (List.mem_cons_of_mem _ hx) y (List.mem_cons_of_mem _ hy))
      simp only [List.map_cons, List.cons.injEq, h1, h2]

/-- A byte is its own 8-bit pattern. -/
theorem to_pattern_byte (n : Nat) (hn : n < 256) : to_pattern 8 (n : Int) = n := by
  unfold to_pattern
  have : ((n : Int) % 2 ^ 8) = n := Int.emod_eq_of_lt (by omega) (by norm_num; omega)
  rw [this]; simp

theorem c_tolower_nat (c : Nat) : c_tolower (c : Int) = ((ascii_lower c : Nat) : Int) := by
  unfold c_tolower ascii_lower
  split
  · rename_i hc
    rw [if_pos (by omega)]; push_cast; ring
  · rename_i hc
    rw [if_neg (by omega), if_neg (by omega)]

theorem ascii_lower_lt (c : Nat) (hc : c < 256) : ascii_lower c < 256 := by
  unfold ascii_lower; split <;> omega

theorem str_to_lower_byte (h : Host) (hh : in_c_locale h) (c : Nat) (hc : c < 256) :
    to_pattern 8 (h.tolower (c : Int)) = ascii_lower c := by
  rw [(hh.1 c (by omega) (by omega)).1, c_tolower_nat, to_pattern_byte _ (ascii_lower_lt c hc)]

theorem lower_char_c_locale (h : Host) (hh : in_c_locale h) (c : Nat) (hc : c < 256) :
    (¬ (h.char_signed = true ∧ 128 ≤ c) → lower_char h c = (ascii_lower c : Int)) ∧
    (h.char_signed = true ∧ 128 ≤ c →
      lower_char h c = (c : Int) - 256 ∨ lower_char h c = (c : Int)) := by
  have e : (2 : Nat) ^ (8 - 1) = 128 := by norm_num
  have e2 : ((2 : Int) ^ 8) = 256 := by norm_num
  unfold lower_char char_to_int of_pattern
  constructor
  · intro hn
    by_cases hs : h.char_signed = true
    · have h128 : c < 128 := by
        by_contra hcon
        exact hn ⟨hs, by omega⟩
      rw [if_pos hs, if_pos (by rw [e]; exact h128), (hh.1 c (by omega) (by omega)).1,
        c_tolower_nat]
    · rw [if_neg hs, (hh.1 c (by omega) (by omega)).1, c_tolower_nat]
  · rintro ⟨hs, h128⟩
    rw [if_pos hs, if_neg (by rw [e]; omega), e2]
    rcases (hh.2 ((c : Int) - 256) (by omega) (by omega)).1 with hl | hl
    · left; exact hl
    · right; rw [hl]; ring

theorem fold_agree (h : Host) (hh : in_c_locale h) (c d : Nat) (hc : c < 256) (hd : d < 256) :
    to_pattern 8 (h.tolower (c : Int)) = to_pattern 8 (h.tolower (d : Int))
      ↔ lower_char h c = lower_char h d := by
  rw [str_to_lower_byte h hh c hc, str_to_lower_byte h hh d hd]
  obtain ⟨c1, c2⟩ := lower_char_c_locale h hh c hc
  obtain ⟨d1, d2⟩ := lower_char_c_locale h hh d hd
  have klow : ∀ x : Nat, 128 ≤ x → ascii_lower x = x := by
    intro x hx; unfold ascii_lower; rw [if_neg (by omega)]
  have ksmall : ∀ x : Nat, x < 128 → ascii_lower x < 128 := by
    intro x hx; unfold ascii_lower; split <;> omega
  by_cases hcs : h.char_signed = true ∧ 128 ≤ c <;> by_cases hds : h.char_signed = true ∧ 128 ≤ d
  · have kc := klow c hcs.2
    have kd := klow d hds.2
    rw [kc, kd]
    constructor
    · rintro rfl; rfl
    · intro heq
      rcases c2 hcs with hl | hl <;> rcases d2 hds with hr | hr <;> rw [hl, hr] at heq <;> omega
  · have kc := klow c hcs.2
    have hd128 : d < 128 := by
      by_contra hcon
      exact hds ⟨hcs.1, by omega⟩
    have kd := ksmall d hd128
    rw [d1 hds]
    constructor
    · intro heq; omega
    · intro heq
      rcases c2 hcs with hl | hl <;> rw [hl] at heq <;> omega
  · have kd := klow d hds.2
    have hc128 : c < 128 := by
      by_contra hcon
      exact hcs ⟨hds.1, by omega⟩
    have kc := ksmall c hc128
    rw [c1 hcs]
    constructor
    · intro heq; omega
    · intro heq
      rcases d2 hds with hr | hr <;> rw [hr] at heq <;> omega
  · rw [c1 hcs, d1 hds]
    constructor
    · intro heq; rw [heq]
    · intro heq; exact_mod_cast heq

/-- In the `"C"` locale `iequals` is equality of the lowercased copies. -/
theorem iequals_eq_lower_eq (h : Host) (hh : in_c_locale h) (a b : Str)
    (ha : is_bytes a) (hb : is_bytes b) :
    iequals h a b = true ↔ str_to_lower h a = str_to_lower h b := by
  rw [iequals_iff_map]
  unfold str_to_lower
  exact (map_eq_map_congr _ _ a b
    (fun c hc d hd => fold_agree h hh c d (ha c hc) (hb d hd))).symm

/-! ## join, get_last, stopwatch, out-of-range numerals: facts -/

theorem join_step_nil (sep b : Str) : join_step sep [] b = b := by
  simp [join_step]

theorem foldl_join_step (sep : Str) (acc : Str) (hacc : acc ≠ []) (lst : List Str) :
    lst.foldl (join_step sep) acc = acc ++ (lst.map (fun b => sep ++ b)).flatten := by
  induction lst generalizing acc with
  | nil => simp
  | cons b lst ih =>
    have hlen : acc.length > 0 := List.length_pos.mpr hacc
    have hstep : join_step sep acc b = acc ++ sep ++ b := by simp [join_step, hlen]
    rw [List.foldl_cons, hstep, ih _ (by simp [hacc])]
    simp

theorem intercalate_cons (sep x : Str) (rest : List Str) :
    List.intercalate sep (x :: rest) = x ++ (rest.map (fun b => sep ++ b)).flatten := by
  induction rest generalizing x with
  | nil => simp [intercalate_singleton]
  | cons y rest ih => rw [intercalate_cons_cons, ih]; simp

/-- What `join` returns: the elements after the leading empty ones, with the
separator between them. -/
theorem join_eq_intercalate_dropWhile (lst : List Str) (sep : Str) :
    join lst sep = List.intercalate sep (lst.dropWhile List.isEmpty) := by
  unfold join
  induction lst with
  | nil => simp [List.intercalate]
  | cons x rest ih =>
    rw [List.foldl_cons, join_step_nil]
    cases x with
    | nil => simpa using ih
    | cons c cs =>
      rw [List.dropWhile_cons_of_neg (by simp), foldl_join_step sep _ (by simp), intercalate_cons]

theorem get_last_eq_getLast {α : Type} (v : α) (args : List α) :
    get_last v args = (v :: args).getLast (List.cons_ne_nil _ _) := by
  induction args generalizing v with
  | nil => rfl
  | cons a args ih => rw [get_last, ih a, List.getLast_cons (List.cons_ne_nil _ _)]

theorem run_nonneg (clock : Nat → Int) (hclock : ∀ i j, i ≤ j → clock i ≤ clock j)
    (calls : List Call) (k : Nat) (w : stopwatch) (hw : w._s ≤ clock k) :
    ∀ x ∈ run clock k w calls, 0 ≤ x := by
  induction calls generalizing k w with
  | nil => simp [run]
  | cons c calls ih =>
    have hk := hclock k (k + 1) (Nat.le_succ k)
    cases c with
    | reset =>
      simp only [run]
      exact ih (k + 1) _ (by simpa [stopwatch.reset] using hk)
    | elapsed =>
      intro x hx
      simp only [run, List.mem_cons] at hx
      rcases hx with rfl | hx
      · simp only [stopwatch.elapsed]; omega
      · exact ih (k + 1) w (by omega) x hx

theorem run_elapsed_ge (clock : Nat → Int) (hclock : ∀ i j, i ≤ j → clock i ≤ clock j)
    (n k : Nat) (w : stopwatch) :
    ∀ x ∈ run clock k w (List.replicate n Call.elapsed), clock k - w._s ≤ x := by
  induction n generalizing k with
  | zero => simp [run]
  | succ n ih =>
    intro x hx
    simp only [List.replicate_succ, run, List.mem_cons] at hx
    rcases hx with rfl | hx
    · simp [stopwatch.elapsed]
    · have := ih (k + 1) x hx
      have hk := hclock k (k + 1) (Nat.le_succ k)
      omega

theorem run_elapsed_sorted (clock : Nat → Int) (hclock : ∀ i j, i ≤ j → clock i ≤ clock j)
    (n k : Nat) (w : stopwatch) :
    List.Pairwise (fun x y => x ≤ y) (run clock k w (List.replicate n Call.elapsed)) := by
  induction n generalizing k with
  | zero => simp [run]
  | succ n ih =>
    simp only [List.replicate_succ, run, List.pairwise_cons]
    exact ⟨fun x hx => run_elapsed_ge clock hclock n (k + 1) w x hx |>.trans' (by
      have hk := hclock k (k + 1) (Nat.le_succ k)
      simp only [stopwatch.elapsed]; omega), ih (k + 1)⟩

theorem extract_int_skip_space (T : NumType) (loc : Locale) (ws text : Str)
    (hws : ∀ c ∈ ws, loc.is_space c = true) :
    extract_int T loc (ws ++ text) = extract_int T loc text := by
  unfold extract_int
  rw [List.dropWhile_append_of_pos hws]

/-- What the extraction returns on a sign, a run of digits and a rest that does
not go on with a digit or separator. -/
theorem extract_int_numeral_eq (T : NumType) (loc : Locale) (sign ds rest : Str)
    (hloc : plain_numerals loc = true)
    (hsign : sign = [] ∨ sign = [43] ∨ sign = [45])
    (hne : ds ≠ [])
    (hds : ∀ c ∈ ds, is_digit c = true)
    (hrest : ∀ c, rest.head? = some c → is_digit c = false ∧ is_sep loc c = false) :
    extract_int T loc (sign ++ ds ++ rest)
      = if T.is_signed = true then
          (if T.holds (numeral_value sign ds) then some (numeral_value sign ds) else none)
        else if (decimal_value ds : Int) ≤ T.max_value then
          some (if sign = [45] then (2 ^ T.bits - (decimal_value ds : Int)) % 2 ^ T.bits
            else (decimal_value ds : Int))
        else none := by
  have hscan := scan_numeral loc hloc ds rest hds hrest
  have hlen : ds.length ≠ 0 := by
    cases ds with
    | nil => exact absurd rfl hne
    | cons d ds => simp
  rcases hsign with rfl | rfl | rfl
  · cases ds with
    | nil => exact absurd rfl hne
    | cons d ds' =>
      have hd : is_digit d = true := hds d (List.mem_cons_self _ _)
      obtain ⟨h1, h2, h3⟩ := plain_numerals_at loc hloc d (Or.inl hd)
      have hd45 : (d == 45) = false := by
        simp only [is_digit, Bool.and_eq_true, decide_eq_true_eq] at hd
        simp; omega
      have hd43 : (d == 43) = false := by
        simp only [is_digit, Bool.and_eq_true, decide_eq_true_eq] at hd
        simp; omega
      simp only [numeral_value]
      simp only [List.nil_append, List.cons_append] at hscan ⊢
      unfold extract_int
      rw [List.dropWhile_cons_of_neg (by simp [h1])]
      simp only [hd45, hd43, Bool.or_self, Bool.false_and, Bool.false_eq_true, if_false, hscan]
      simp only [hlen, false_and, false_or, Bool.false_eq_true, if_false, ne_eq,
        not_true_eq_false, reduceCtorEq]
  · obtain ⟨h1, h2, h3⟩ := plain_numerals_at loc hloc 43 (Or.inr (Or.inl rfl))
    have h2' : (43 == loc.decimal_point) = false := by simpa using h2
    have hnv : numeral_value [43] ds = (decimal_value ds : Int) := by simp [numeral_value]
    rw [hnv]
    simp only [List.cons_append, List.nil_append, List.append_assoc]
    unfold extract_int
    rw [List.dropWhile_cons_of_neg (by simp [h1])]
    simp only [h3, h2', show ((43 : Nat) == 45) = false from rfl,
      show ((43 : Nat) == 43) = true from rfl,
      Bool.false_or, Bool.not_false, Bool.and_self, if_true, hscan]
    simp only [hlen, false_and, false_or, Bool.false_eq_true, if_false, ne_eq,
      not_true_eq_false, reduceCtorEq]
    simp
  · obtain ⟨h1, h2, h3⟩ := plain_numerals_at loc hloc 45 (Or.inr (Or.inr rfl))
    have h2' : (45 == loc.decimal_point) = false := by simpa using h2
    have hnv : numeral_value [45] ds = -(decimal_value ds : Int) := by simp [numeral_value]
    rw [hnv]
    simp only [List.cons_append, List.nil_append, List.append_assoc]
    unfold extract_int
    rw [List.dropWhile_cons_of_neg (by simp [h1])]
    simp only [h3, h2', show ((45 : Nat) == 45) = true from rfl,
      Bool.true_or, Bool.not_false, Bool.and_self, if_true, hscan]
    simp only [hlen, false_and, false_or, Bool.false_eq_true, if_false, ne_eq,
      not_true_eq_false, reduceCtorEq]

theorem map_eq_map_iff_getElem {β : Type} (f : Nat → β) (a b : Str) :
    a.map f = b.map f ↔
      a.length = b.length ∧ ∀ i (ha : i < a.length) (hb : i < b.length), f a[i] = f b[i] := by
  induction a generalizing b with
  | nil =>
    cases b with
    | nil => simp
    | cons d b => simp
  | cons c a ih =>
    cases b with
    | nil => simp
    | cons d b =>
      simp only [List.map_cons, List.cons.injEq, ih b, List.length_cons,
        Nat.add_right_cancel_iff]
      constructor
      · rintro ⟨hc, hl, hp⟩
        refine ⟨hl, fun i ha hb => ?_⟩
        cases i with
        | zero => simpa using hc
        | succ i => simpa using hp i (by simpa using ha) (by simpa using hb)
      · rintro ⟨hl, hp⟩
        refine ⟨by simpa using hp 0 (by simp) (by simp), hl, fun i ha hb => ?_⟩
        simpa using hp (i + 1) (by simpa using ha) (by simpa using hb)

theorem in_c_locale_c_host : in_c_locale c_host := by
  refine ⟨fun _ _ _ => ⟨rfl, rfl⟩, fun c h1 h2 => ⟨?_, ?_⟩⟩
  · show c_tolower c = c ∨ c_tolower c = c + 256
    unfold c_tolower
    by_cases hc : c < -1
    · right; rw [if_neg (by omega), if_pos ⟨h1, hc⟩]
    · left; rw [if_neg (by omega), if_neg (by omega)]
  · show c_isspace c = false
    unfold c_isspace
    simp only [Bool.or_eq_false_iff, beq_eq_false_iff_ne, ne_eq, Bool.and_eq_false_iff,
      decide_eq_false_iff_not]
    omega

/-! ## the claims, continued -/

/-- C11: `trim_copy(s)` is the middle of `s` between a run of whitespace on
either side, it is empty or starts and ends with a byte that is not
whitespace, and it is the only string that is so; a string of whitespace trims
to the empty string, the in-place `trim` leaves `trim_copy` of the old value,
and `trim_copy("  ab c  ")` is `"ab c"`. -/
theorem trim_copy_is_the_trimmed_middle (h : Host) (s : Str) :
    (∃ pre post, s = pre ++ trim_copy h s ++ post ∧ all_ws h pre ∧ all_ws h post ∧
      trimmed h (trim_copy h s)) ∧
    (∀ pre t post, s = pre ++ t ++ post → all_ws h pre → all_ws h post → trimmed h t →
      t = trim_copy h s) ∧
    (all_ws h s → trim_copy h s = []) ∧
    trim h s = trim_copy h s ∧
    trim_copy c_host (lit "  ab c  ") = lit "ab c" := by
  refine ⟨trim_parts h s, ?_, ?_, rfl, by decide⟩
  · intro pre t post hs hpre hpost ht
    rw [hs]
    exact (trim_of_parts h pre t post hpre hpost ht).1.symm
  · intro hall
    unfold trim_copy trim
    rw [ltrim_all_ws h s hall]
    rfl

/-- C11 at `"  ab c  "` in the `"C"` locale: the only trimmed middle is `"ab c"`. -/
theorem trim_copy_is_the_trimmed_middle_witness :
    lit "ab c" = trim_copy c_host (lit "  ab c  ") :=
  (trim_copy_is_the_trimmed_middle c_host (lit "  ab c  ")).2.1 (lit "  ") (lit "ab c")
    (lit "  ") (by decide) (by unfold all_ws; decide) (by unfold all_ws; decide)
    (Or.inr ⟨⟨97, rfl, rfl⟩, ⟨99, rfl, rfl⟩⟩)

/-- C12: `ltrim_copy(s)` is the suffix of `s` left when the leading run of
whitespace is dropped: `s` is whitespace followed by it, it is empty or starts
with a byte that is not whitespace, and no other suffix is so.  `rtrim_copy(s)`
is the same at the other end: `s` is it followed by whitespace, it is empty or
ends with a byte that is not whitespace, and no other such string is so. -/
theorem ltrim_rtrim_copy_one_side (h : Host) (s : Str) :
    ((∃ pre, s = pre ++ ltrim_copy h s ∧ all_ws h pre) ∧
      (ltrim_copy h s = [] ∨ ∃ b, (ltrim_copy h s).head? = some b ∧ is_ws h b = false) ∧
      (∀ pre t, s = pre ++ t → all_ws h pre →
        (t = [] ∨ ∃ b, t.head? = some b ∧ is_ws h b = false) → t = ltrim_copy h s)) ∧
    ((∃ post, s = rtrim_copy h s ++ post ∧ all_ws h post) ∧
      (rtrim_copy h s = [] ∨ ∃ b, (rtrim_copy h s).getLast? = some b ∧ is_ws h b = false) ∧
      (∀ t post, s = t ++ post → all_ws h post →
        (t = [] ∨ ∃ b, t.getLast? = some b ∧ is_ws h b = false) → t = rtrim_copy h s)) ∧
    ltrim_copy c_host (lit "  ab c  ") = lit "ab c  " ∧
    rtrim_copy c_host (lit "  ab c  ") = lit "  ab c" := by
  obtain ⟨h1, h2, h3⟩ := ltrim_split h s
  obtain ⟨k1, k2, k3⟩ := rtrim_split h s
  refine ⟨⟨⟨_, h1, h2⟩, h3, ?_⟩, ⟨⟨_, k1, k2⟩, k3, ?_⟩, by decide, by decide⟩
  · intro pre t hs hpre ht
    unfold ltrim_copy
    rw [hs, ltrim_append_all_ws h pre t hpre]
    rcases ht with rfl | ⟨b, hb, hw⟩
    · rfl
    · exact (ltrim_of_head h t b hb hw).symm
  · intro t post hs hpost ht
    unfold rtrim_copy
    rw [hs, rtrim_append_all_ws h t post hpost]
    rcases ht with rfl | ⟨b, hb, hw⟩
    · rfl
    · exact (rtrim_of_last h t b hb hw).symm

/-- C12 at `"  ab c  "` in the `"C"` locale: dropping the two leading blanks
leaves `"ab c  "`, the only suffix that starts with a byte that is not
whitespace after whitespace. -/
theorem ltrim_rtrim_copy_one_side_witness :
    lit "ab c  " = ltrim_copy c_host (lit "  ab c  ") :=
  (ltrim_rtrim_copy_one_side c_host (lit "  ab c  ")).1.2.2 (lit "  ") (lit "ab c  ")
    (by decide) (by unfold all_ws; decide) (Or.inr ⟨97, rfl, rfl⟩)

/-- C13: `iequals(a, b)` is true exactly when the two strings have the same
length and at every position the lowercase fold of the two bytes is the same;
it is false when the lengths differ; `iequals("AbC", "abc")` is true and
`iequals("abc", "abcd")` is false. -/
theorem iequals_iff_same_length_and_fold (h : Host) (a b : Str) :
    (iequals h a b = true ↔
      a.length = b.length ∧
        ∀ i (ha : i < a.length) (hb : i < b.length), lower_char h a[i] = lower_char h b[i]) ∧
    (a.length ≠ b.length → iequals h a b = false) ∧
    iequals c_host (lit "AbC") (lit "abc") = true ∧
    iequals c_host (lit "abc") (lit "abcd") = false := by
  refine ⟨?_, ?_, by decide, by decide⟩
  · rw [iequals_iff_map, map_eq_map_iff_getElem]
  · intro hl
    unfold iequals
    have : (a.length == b.length) = false := by simpa using hl
    rw [this]
    rfl

/-- C13 at strings of different length. -/
theorem iequals_iff_same_length_and_fold_witness :
    iequals c_host (lit "abc") (lit "abcd") = false :=
  (iequals_iff_same_length_and_fold c_host (lit "abc") (lit "abcd")).2.1 (by decide)

/-- C15: `get_last` on one argument is that argument, on more arguments it is
`get_last` of the arguments after the first, and so it is the last argument
of every call; `get_last(1, 2.5, "x")` is `"x"` and `get_last(7)` is 7. -/
theorem get_last_is_last_argument {α : Type} (v : α) (args : List α) :
    get_last v [] = v ∧
    (∀ a rest, get_last v (a :: rest) = get_last a rest) ∧
    get_last v args = (v :: args).getLast (List.cons_ne_nil _ _) ∧
    get_last (Arg.int 1) [Arg.real (5 / 2), Arg.text (lit "x")] = Arg.text (lit "x") ∧
    get_last (Arg.int 7) [] = Arg.int 7 :=
  ⟨rfl, fun _ _ => rfl, get_last_eq_getLast v args, rfl, rfl⟩

/-- C16: with a clock whose readings never decrease, every `elapsed()` of a
stopwatch after its construction is not negative, whatever calls were made
before; `elapsed()` calls in a row return values that do not decrease;
`elapsed()` is the reading minus the stored instant and leaves the stopwatch
as it is; `reset()` stores the reading, and `elapsed()` at that same reading
is 0. -/
theorem stopwatch_elapsed_nonneg_monotone (clock : Nat → Int)
    (hclock : ∀ i j, i ≤ j → clock i ≤ clock j) :
    (∀ k calls, ∀ x ∈ run clock (k + 1) (stopwatch.create (clock k)) calls, 0 ≤ x) ∧
    (∀ k w n, List.Pairwise (fun x y => x ≤ y) (run clock k w (List.replicate n Call.elapsed))) ∧
    (∀ (w : stopwatch) now, w.elapsed now = now - w._s) ∧
    (∀ (w : stopwatch) now, (w.reset now)._s = now ∧ (w.reset now).elapsed now = 0) := by
  refine ⟨fun k calls => run_nonneg clock hclock calls (k + 1) _
      (by simpa [stopwatch.create] using hclock k (k + 1) (Nat.le_succ k)),
    fun k w n => run_elapsed_sorted clock hclock n k w, fun _ _ => rfl, fun w now => ?_⟩
  simp [stopwatch.reset, stopwatch.elapsed]

/-- C16 with the clock that reads 0, 10, 20, ...: a stopwatch made at 0, read at
10, reset at 20, read at 30 and 40 returns 10, 10, 20. -/
theorem stopwatch_elapsed_nonneg_monotone_witness :
    (∀ x ∈ run (fun k => 10 * (k : Int)) 1 (stopwatch.create 0)
        [Call.elapsed, Call.reset, Call.elapsed, Call.elapsed], 0 ≤ x) ∧
    run (fun k => 10 * (k : Int)) 1 (stopwatch.create 0)
        [Call.elapsed, Call.reset, Call.elapsed, Call.elapsed] = [10, 10, 20] :=
  ⟨(stopwatch_elapsed_nonneg_monotone (fun k => 10 * (k : Int))
      (fun i j hij => by simp only; omega)).1 0
      [Call.elapsed, Call.reset, Call.elapsed, Call.elapsed],
   by decide⟩

/-- C17: `join` tests whether the text so far is empty, so it returns the
elements after the leading empty ones with the separator between them; that
is the elements with the separator between them when the sequence is empty or
its first element is not empty; `join({"a","","b"}, ",")` is `"a,,b"` and
`join({"","a"}, ",")` is `"a"`. -/
theorem join_skips_leading_empty (lst : List Str) (sep : Str) :
    join lst sep = List.intercalate sep (lst.dropWhile List.isEmpty) ∧
    (lst = [] ∨ (∃ x rest, lst = x :: rest ∧ x ≠ []) →
      join lst sep = List.intercalate sep lst) ∧
    join [lit "a", lit "", lit "b"] (lit ",") = lit "a,,b" ∧
    join [lit "", lit "a"] (lit ",") = lit "a" := by
  refine ⟨join_eq_intercalate_dropWhile lst sep, ?_, by decide, by decide⟩
  rintro (rfl | ⟨x, rest, rfl, hx⟩)
  · rfl
  · rw [join_eq_intercalate_dropWhile, List.dropWhile_cons_of_neg]
    cases x with
    | nil => exact absurd rfl hx
    | cons c cs => simp

/-- C17 at a sequence whose first element is not empty. -/
theorem join_skips_leading_empty_witness :
    join [lit "a", lit "", lit "b"] (lit ",")
      = List.intercalate (lit ",") [lit "a", lit "", lit "b"] :=
  (join_skips_leading_empty [lit "a", lit "", lit "b"] (lit ",")).2.1
    (Or.inr ⟨lit "a", [lit "", lit "b"], rfl, by decide⟩)

/-- C19: trimming twice is trimming once, and trimming the left end then the
right end, or the right end then the left end, is `trim_copy`. -/
theorem trim_copy_idempotent_and_order_free (h : Host) (s : Str) :
    trim_copy h (trim_copy h s) = trim_copy h s ∧
    rtrim_copy h (ltrim_copy h s) = trim_copy h s ∧
    ltrim_copy h (rtrim_copy h s) = trim_copy h s := by
  obtain ⟨pre, post, hs, hpre, hpost, ht⟩ := trim_parts h s
  refine ⟨?_, rfl, ?_⟩
  · have := (trim_of_parts h [] (trim h s) [] (by simp [all_ws]) (by simp [all_ws]) ht).1
    simpa [trim_copy] using this
  · have := (trim_of_parts h pre (trim h s) post hpre hpost ht).2
    rw [← hs] at this
    exact this

end pq_async
